import Mathlib

/-!
Verification development for the restaurant review system
(review_generator.py, gemini_polisher.py, routes.py).

The Python source is shallowly embedded: strings are modelled as `List Char`
(with `String` wrappers at the interfaces), Python floats are modelled as
exact rationals, random choices are modelled as explicit index parameters
ranging over all possible outcomes, and fallible operations return `Except`.
Character case operations are modelled at ASCII precision, matching the
ASCII texts handled by the program.
-/

namespace ReviewSys

/-- ASCII whitespace, as matched by the `\s` regex class and `str.split`. -/
def isWs (c : Char) : Bool :=
  c = ' ' || c = '\t' || c = '\n' || c = '\r' || c = '\x0b' || c = '\x0c'

/-- The sentence-terminal punctuation class `[.!?]`. -/
def isPunctC (c : Char) : Bool :=
  c = '.' || c = '!' || c = '?'

/-- ASCII uppercase conversion, modelling `str.upper` on one character. -/
def upChar (c : Char) : Char :=
  if 97 ≤ c.toNat ∧ c.toNat ≤ 122 then Char.ofNat (c.toNat - 32) else c

/-- ASCII lowercase conversion, modelling `str.lower` on one character. -/
def lowChar (c : Char) : Char :=
  if 65 ≤ c.toNat ∧ c.toNat ≤ 90 then Char.ofNat (c.toNat + 32) else c

/-- `str.lower` over a whole string (ASCII model). -/
def pyLower (s : String) : String := ⟨s.data.map lowChar⟩

/-- Boolean scan of all adjacent pairs of a list. -/
def pairsOK (p : Char → Char → Bool) : List Char → Bool
  | [] => true
  | [_] => true
  | a :: b :: rest => p a b && pairsOK p (b :: rest)

/-- Scanning pass for `re.sub(r'\s+', ' ', text)`: the flag records whether
the previous character was whitespace (in which case the current whitespace
character belongs to an already-replaced run). -/
def collapseAux : Bool → List Char → List Char
  | _, [] => []
  | prevWs, c :: rest =>
    if isWs c then
      if prevWs then collapseAux true rest else ' ' :: collapseAux true rest
    else c :: collapseAux false rest

/-- Step 1 of `_enhance_review`: `re.sub(r'\s+', ' ', text)`, collapsing each
maximal whitespace run to a single space. -/
def collapseWs (l : List Char) : List Char := collapseAux false l

/-- Whether the first non-whitespace character of the list is `[.!?]`. -/
def nextNonWsPunct (l : List Char) : Bool :=
  match l.dropWhile isWs with
  | p :: _ => isPunctC p
  | [] => false

/-- Step 2 of `_enhance_review`: `re.sub(r'\s+([.!?])', r'\1', text)`.  A
whitespace character is removed exactly when the next non-whitespace
character after it is terminal punctuation. -/
def rmWsPunct : List Char → List Char
  | [] => []
  | c :: cs =>
    if isWs c && nextNonWsPunct cs then rmWsPunct cs
    else c :: rmWsPunct cs

/-- Trailing-whitespace removal: a character is kept unless it is whitespace
and everything after it strips away. -/
def rstripWs : List Char → List Char
  | [] => []
  | c :: cs =>
    let r := rstripWs cs
    if r = [] && isWs c then [] else c :: r

/-- `str.strip()` (ASCII whitespace model): drop leading and trailing
whitespace. -/
def stripWs (l : List Char) : List Char := rstripWs (l.dropWhile isWs)

/-- `text.split('. ')`: leftmost, non-overlapping split on the two-character
separator, exactly as Python `str.split` scans. -/
def splitDS : List Char → List (List Char)
  | [] => [[]]
  | [c] => [[c]]
  | a :: b :: rest =>
    if a = '.' ∧ b = ' ' then [] :: splitDS rest
    else (splitDS (b :: rest)).modifyHead (a :: ·)

/-- `'. '.join(segs)`. -/
def joinDS : List (List Char) → List Char
  | [] => []
  | [s] => s
  | s :: ss => s ++ '.' :: ' ' :: joinDS ss

/-- Per-segment capitalization from `_enhance_review`:
`sentence[0].upper() + sentence[1:] if len(sentence) > 1 else sentence.upper()`. -/
def capSeg : List Char → List Char
  | [] => []
  | [c] => [upChar c]
  | c :: cs => upChar c :: cs

/-- Step 3 of `_enhance_review`: split on `'. '`, drop empty segments,
capitalize each remaining segment, rejoin with `'. '`. -/
def capStep (l : List Char) : List Char :=
  joinDS (((splitDS l).filter (· ≠ [])).map capSeg)

/-- Whether the text ends with `.`, `!` or `?` (`str.endswith(('.', '!', '?'))`). -/
def endsPunct (l : List Char) : Bool :=
  match l.getLast? with
  | some c => isPunctC c
  | none => false

/-- Step 4 of `_enhance_review`: append `'!'` when the text does not already
end in terminal punctuation. -/
def bangStep (l : List Char) : List Char :=
  if endsPunct l then l else l ++ ['!']

/-- `ReviewGenerator._enhance_review`, the Text Finisher, over character lists. -/
def enhanceCore (l : List Char) : List Char :=
  bangStep (capStep (stripWs (rmWsPunct (collapseWs l))))

/-- `ReviewGenerator._enhance_review` on strings. -/
def enhanceReview (s : String) : String := ⟨enhanceCore s.data⟩

/-! ## Data model

`Restaurant` carries the decoded state of the `models.Restaurant` fields the
generator reads (`get_seo_keywords` and `get_custom_templates` return the
JSON-decoded lists). -/

structure Restaurant where
  name : String
  cuisine : String
  restaurant_type : String
  location : String
  seo_keywords : List String
  custom_templates : List String
deriving Repr, DecidableEq

/-- One generation call draws these independent random outcomes; quantifying
over `Rand` quantifies over every possible behaviour of the process-wide
random source. -/
structure Rand where
  tIdx : Nat
  shufIdx : Nat
  praiseIdx : Nat
  closeIdx : Nat
  dishIdx : Nat
deriving Repr, DecidableEq

/-- `random.choice`: some element of the list, selected by the outcome index. -/
def pick {α : Type} (l : List α) (i : Nat) (dflt : α) : α :=
  l.getD (i % l.length) dflt

/-- `random.shuffle` of a list: some permutation of it, selected by the
outcome index. -/
def shuffle {α : Type} [DecidableEq α] (i : Nat) (l : List α) : List α :=
  l.permutations.getD (i % l.permutations.length) l

/-! ## Phrase banks (`ReviewGenerator.__init__`, `_get_default_templates`,
`_enhance_dish_description`) -/

/-- `self.cuisine_praise.get(cuisine, default)` from `_get_cuisine_praise`. -/
def cuisinePraiseOptions (cuisine : String) : List String :=
  if cuisine = "Mexican" then
    ["authentic flavors that transported me straight to Mexico",
     "fresh ingredients with the perfect balance of spices",
     "traditional preparation with incredible taste",
     "genuine Mexican flavors done right",
     "bold spices and amazing presentation",
     "like my abuela\x27s cooking but even better"]
  else if cuisine = "Italian" then
    ["traditional Italian techniques with premium ingredients",
     "perfectly prepared with authentic Italian flair",
     "like dining in Tuscany with incredible attention to detail",
     "masterfully crafted with genuine Italian passion",
     "rich, authentic flavors that sing",
     "perfectly al dente with amazing sauce"]
  else if cuisine = "Chinese" then
    ["authentic Chinese flavors with perfect seasoning",
     "traditional techniques with fresh ingredients",
     "amazing wok hei and perfect balance of flavors"]
  else if cuisine = "American" then
    ["perfectly prepared comfort food",
     "classic American flavors done exceptionally well",
     "hearty portions with incredible taste"]
  else if cuisine = "Thai" then
    ["perfect balance of sweet, sour, salty and spicy",
     "authentic Thai flavors with amazing aromatics",
     "traditional recipes with fresh herbs and spices"]
  else
    ["perfectly prepared with great attention to detail",
     "absolutely delicious with amazing flavors",
     "expertly crafted and beautifully presented"]

/-- The `casual` entry of `self.closing_phrases`. -/
def casualClosings : List String :=
  ["Can\x27t wait to come back and try more dishes!",
   "Already planning my next visit!",
   "This place is definitely going on my regular rotation!",
   "Telling all my friends about this gem!",
   "Will definitely be back soon!",
   "Highly recommend to anyone in the area!"]

/-- `self.closing_phrases.get(restaurant_type, self.closing_phrases['casual'])`
from `_get_closing_phrase`. -/
def closingOptions (restaurant_type : String) : List String :=
  if restaurant_type = "casual" then casualClosings
  else if restaurant_type = "upscale" then
    ["We look forward to returning for another exceptional experience.",
     "A dining experience we will fondly remember.",
     "This establishment has earned our highest recommendation.",
     "We will certainly be returning guests.",
     "An outstanding addition to the culinary landscape.",
     "Exceptional in every regard."]
  else if restaurant_type = "fast_casual" then
    ["Perfect for a quick, delicious meal!",
     "Great option when you want quality fast food!",
     "Will definitely be back when I\x27m in the area!",
     "Exactly what I was looking for!"]
  else casualClosings

/-- The `casual` entry of the `_get_default_templates` table. -/
def casualTemplates : List String :=
  ["Had an amazing {rating}-star experience at {name}! The {dish} was absolutely incredible - {cuisine_praise}. Perfect spot for {atmosphere} and definitely {seo_keyword_1}. The {location} location is super convenient! {closing_praise}",
   "Wow! {name} totally exceeded my expectations! The {dish} was fantastic - {cuisine_praise}. Great atmosphere for {atmosphere}, and honestly one of the {seo_keyword_2} around. {closing_praise}",
   "Just discovered my new favorite place! {name} serves amazing {rating}-star {cuisine} food. The {dish} was the highlight - {cuisine_praise}. Perfect for {atmosphere} and easily {seo_keyword_1}. {closing_praise}"]

/-- `ReviewGenerator._get_default_templates`:
`templates.get(restaurant_type, templates['casual'])`. -/
def defaultTemplates (restaurant_type : String) : List String :=
  if restaurant_type = "casual" then casualTemplates
  else if restaurant_type = "upscale" then
    ["Exceptional {rating}-star dining experience at {name}. The {dish} was expertly prepared - {cuisine_praise}. The ambiance was perfect for {atmosphere}, truly representing {seo_keyword_1}. The {location} location adds to its sophisticated charm. {closing_praise}",
     "Outstanding evening at {name}. The {dish} was beautifully crafted - {cuisine_praise}. Every detail made it ideal for {atmosphere}. When seeking {seo_keyword_2}, this restaurant delivers excellence. {closing_praise}",
     "Remarkable {rating}-star experience at {name}. The {dish} showcased culinary expertise - {cuisine_praise}. Wonderful setting for {atmosphere} with impeccable service throughout. Easily {seo_keyword_1} with its commitment to quality. {closing_praise}"]
  else if restaurant_type = "fast_casual" then
    ["Great {rating}-star experience at {name}! The {dish} was delicious and quick - {cuisine_praise}. Perfect for {atmosphere} when you want quality food fast. Definitely {seo_keyword_1} for the area! {closing_praise}",
     "Really impressed with {name}! The {dish} was amazing - {cuisine_praise}. Great option for {atmosphere} and one of the {seo_keyword_2} spots around. {closing_praise}"]
  else casualTemplates

/-- The per-cuisine dish enhancement table of `_enhance_dish_description`,
in insertion order (first matching key wins). -/
def dishEnhancements (cuisine : String) : List (String × List String) :=
  if cuisine = "Mexican" then
    [("tacos", ["amazing tacos", "authentic tacos", "incredible tacos"]),
     ("burrito", ["massive burrito", "loaded burrito", "perfect burrito"]),
     ("enchiladas", ["cheese enchiladas", "chicken enchiladas", "amazing enchiladas"]),
     ("margarita", ["perfect margarita", "refreshing margarita", "house margarita"])]
  else if cuisine = "Italian" then
    [("pasta", ["homemade pasta", "fresh pasta", "perfectly cooked pasta"]),
     ("pizza", ["wood-fired pizza", "authentic pizza", "amazing pizza"]),
     ("risotto", ["creamy risotto", "perfect risotto", "incredible risotto"])]
  else []

/-! ## String helpers used by the analyzer and dish enhancer -/

/-- Whether `pat` is a leading sequence of `l` (substring search step). -/
def startsW : List Char → List Char → Bool
  | [], _ => true
  | _ :: _, [] => false
  | p :: ps, c :: cs => p = c && startsW ps cs

/-- Python `pat in text`: substring containment. -/
def containsSub (pat : List Char) : List Char → Bool
  | [] => pat.isEmpty
  | c :: cs => startsW pat (c :: cs) || containsSub pat cs

/-- Accumulator pass for `str.split()` (split on whitespace runs, no empties). -/
def wordsAux : List Char → List Char → List (List Char)
  | [], acc => if acc = [] then [] else [acc.reverse]
  | c :: rest, acc =>
    if isWs c then
      if acc = [] then wordsAux rest [] else acc.reverse :: wordsAux rest []
    else wordsAux rest (c :: acc)

/-- `str.split()` over character lists. -/
def wordsOf (l : List Char) : List (List Char) := wordsAux l []

/-- Counting pass for `re.findall(r'[.!?]+', text)`: the flag records whether
the previous character was terminal punctuation. -/
def countRunsAux : Bool → List Char → Nat
  | _, [] => 0
  | prev, c :: rest =>
    if isPunctC c then (if prev then 0 else 1) + countRunsAux true rest
    else countRunsAux false rest

/-- Number of maximal runs of `[.!?]`, i.e. `len(re.findall(r'[.!?]+', text))`. -/
def countPunctRuns (l : List Char) : Nat := countRunsAux false l

/-! ## `_enhance_dish_description` -/

/-- `ReviewGenerator._enhance_dish_description`: lowercase the raw dish string,
return a random embellished rendering for the first enhancement key occurring
in it as a substring; otherwise pass multi-word dish names through unchanged
and wrap single-word ones as `amazing {dish}`. -/
def enhanceDish (dish cuisine : String) (i : Nat) : String :=
  let dishLower := pyLower dish
  match (dishEnhancements cuisine).find? (fun kv => containsSub kv.1.data dishLower.data) with
  | some kv => pick kv.2 i ""
  | none => if (wordsOf dish.data).length > 1 then dish else "amazing " ++ dish

/-! ## `str.format` with named placeholders

`template.format(**template_vars)`: a `{` opens a placeholder closed by the
next `}`; the name is looked up among the keyword arguments, a missing name
raises `KeyError`; `{{` and `}}` are literal braces; an unmatched brace raises
`ValueError`. -/

/-- One-pass scanner for `str.format`: `none` is copy mode, `some acc` is
placeholder mode with the reversed name accumulated so far. -/
def formatAux (vars : List (String × String)) : List Char → Option (List Char) → Except String (List Char)
  | [], none => .ok []
  | [], some _ => .error "ValueError: unmatched brace"
  | '\x7b' :: '\x7b' :: rest, none => (fun t => '\x7b' :: t) <$> formatAux vars rest none
  | '\x7b' :: rest, none => formatAux vars rest (some [])
  | '\x7d' :: '\x7d' :: rest, none => (fun t => '\x7d' :: t) <$> formatAux vars rest none
  | '\x7d' :: _, none => .error "ValueError: unmatched brace"
  | c :: rest, none => (fun t => c :: t) <$> formatAux vars rest none
  | '\x7d' :: rest, some acc =>
    match vars.lookup (String.mk acc.reverse) with
    | some v => (fun t => v.data ++ t) <$> formatAux vars rest none
    | none => .error ("KeyError: " ++ String.mk acc.reverse)
  | c :: rest, some acc => formatAux vars rest (some (c :: acc))

/-- `template.format(**template_vars)` over character lists. -/
def formatCore (vars : List (String × String)) (template : List Char) : Except String (List Char) :=
  formatAux vars template none

/-- `template.format(**template_vars)` on strings. -/
def pyFormat (template : String) (vars : List (String × String)) : Except String String :=
  (fun l => String.mk l) <$> formatCore vars template.data

/-! ## `_prepare_template_variables` and `generate_review` -/

/-- The body of `_prepare_template_variables` after the keyword shuffle,
parameterized by the shuffled copy `seoKeywords`.  Missing keywords fall back
to generic phrases built from the cuisine name. -/
def prepareTemplateVarsWith (seoKeywords : List String) (r : Restaurant) (rating : Int)
    (favorite_dish atmosphere : String) (rnd : Rand) : List (String × String) :=
  let cuisinePraise := pick (cuisinePraiseOptions r.cuisine) rnd.praiseIdx ""
  let closingPhrase := pick (closingOptions r.restaurant_type) rnd.closeIdx ""
  let enhancedDish := enhanceDish favorite_dish r.cuisine rnd.dishIdx
  [("name", r.name),
   ("rating", toString rating),
   ("dish", enhancedDish),
   ("favorite_dish", enhancedDish),
   ("atmosphere", atmosphere),
   ("location", r.location),
   ("cuisine", r.cuisine),
   ("cuisine_praise", cuisinePraise),
   ("seo_keyword_1",
     match seoKeywords with
     | k :: _ => k
     | [] => "great " ++ pyLower r.cuisine ++ " restaurant"),
   ("seo_keyword_2",
     match seoKeywords with
     | _ :: k :: _ => k
     | [k] => k
     | [] => pyLower r.cuisine ++ " food"),
   ("closing_praise", closingPhrase),
   ("restaurant_type", r.restaurant_type)]

/-- `ReviewGenerator._prepare_template_variables`: shuffle a copy of the SEO
keyword list, then build the variable map. -/
def prepareTemplateVars (r : Restaurant) (rating : Int)
    (favorite_dish atmosphere : String) (rnd : Rand) : List (String × String) :=
  prepareTemplateVarsWith (shuffle rnd.shufIdx r.seo_keywords)
    r rating favorite_dish atmosphere rnd

/-- The analysis dictionary of `_analyze_review`.  The source additionally
returns the average rounded to one decimal for display; the unrounded
quotient recorded here is the value the readability test uses. -/
structure Analysis where
  word_count : Nat
  seo_keywords_used : Nat
  keywords_found : List String
  readability : String
  sentences : Nat
  avg_words_per_sentence : ℚ
deriving Repr, DecidableEq

/-- The keyword loop of `_analyze_review`: walk the restaurant keywords in
order, appending each whose lowercase form occurs in the lowercase text. -/
def keywordsFoundLoop (seoKeywords : List String) (reviewLower : List Char) : List String :=
  seoKeywords.foldl
    (fun acc k => if containsSub (pyLower k).data reviewLower then acc ++ [k] else acc) []

/-- `ReviewGenerator._analyze_review`. -/
def analyzeReview (review_text : String) (seo_keywords : List String) : Analysis :=
  let word_count := (wordsOf review_text.data).length
  let keywords_found := keywordsFoundLoop seo_keywords (pyLower review_text).data
  let sentences := countPunctRuns review_text.data
  let avg : ℚ := (word_count : ℚ) / (max sentences 1 : ℕ)
  { word_count := word_count,
    seo_keywords_used := keywords_found.length,
    keywords_found := keywords_found,
    readability := if avg < 20 then "Good" else "Complex",
    sentences := sentences,
    avg_words_per_sentence := avg }

/-- The result dictionary of `generate_review`. -/
structure GeneratedReview where
  review : String
  word_count : Nat
  seo_count : Nat
  seo_keywords : List String
  readability_score : String
  template_used : Nat
deriving Repr, DecidableEq

/-- `ReviewGenerator.generate_review`: pick a template (custom if any, else the
defaults for the restaurant type), fill it, finish the text, analyze it.  A
`KeyError`/`ValueError` escaping `template.format` is the error case. -/
def generateReview (r : Restaurant) (rating : Int)
    (favorite_dish atmosphere : String) (rnd : Rand) : Except String GeneratedReview :=
  let templates := if r.custom_templates = [] then defaultTemplates r.restaurant_type
                   else r.custom_templates
  let template := pick templates rnd.tIdx ""
  let vars := prepareTemplateVars r rating favorite_dish atmosphere rnd
  match pyFormat template vars with
  | .error e => .error e
  | .ok raw =>
    let review_text := enhanceReview raw
    let analysis := analyzeReview review_text r.seo_keywords
    .ok { review := review_text,
          word_count := analysis.word_count,
          seo_count := analysis.seo_keywords_used,
          seo_keywords := analysis.keywords_found,
          readability_score := analysis.readability,
          template_used := templates.indexOf template + 1 }

/-! ## State-threaded variant for the frame property (C10)

Python objects are mutable; the only write-shaped operation in the generator
is `random.shuffle`, applied in `_prepare_template_variables` to
`restaurant.get_seo_keywords().copy()`.  The state-threaded embedding makes
the aliasing explicit: `shuffleCopy` returns the shuffled fresh copy together
with the stored list as it stands after the call (unchanged, because the
shuffle wrote through the copy). -/

def shuffleCopy (stored : List String) (i : Nat) : List String × List String :=
  (shuffle i stored, stored)

/-- `_prepare_template_variables`, returning the variables together with the
restaurant record as it stands after the call. -/
def prepareTemplateVarsSt (r : Restaurant) (rating : Int)
    (favorite_dish atmosphere : String) (rnd : Rand) :
    List (String × String) × Restaurant :=
  let shuffled := shuffleCopy r.seo_keywords rnd.shufIdx
  (prepareTemplateVarsWith shuffled.1 r rating favorite_dish atmosphere rnd,
   { r with seo_keywords := shuffled.2 })

/-- `generate_review`, threading the restaurant record through the call. -/
def generateReviewSt (r : Restaurant) (rating : Int)
    (favorite_dish atmosphere : String) (rnd : Rand) :
    Except String GeneratedReview × Restaurant :=
  let templates := if r.custom_templates = [] then defaultTemplates r.restaurant_type
                   else r.custom_templates
  let template := pick templates rnd.tIdx ""
  let step := prepareTemplateVarsSt r rating favorite_dish atmosphere rnd
  let r2 := step.2
  (match pyFormat template step.1 with
   | .error e => .error e
   | .ok raw =>
     let review_text := enhanceReview raw
     let analysis := analyzeReview review_text r2.seo_keywords
     .ok { review := review_text,
           word_count := analysis.word_count,
           seo_count := analysis.seo_keywords_used,
           seo_keywords := analysis.keywords_found,
           readability_score := analysis.readability,
           template_used := templates.indexOf template + 1 }, r2)

/-! ## `gemini_polisher.polish_review` -/

/-- The result dictionary of `polish_review`.  `improvement_made` is present
only on the success path; the failure paths also carry the exception text,
which the claims do not touch. -/
structure PolishResult where
  polished_review : String
  original_review : String
  polished : Bool
  cost_estimate : ℚ
  improvement_made : Option Bool
deriving Repr, DecidableEq

/-- The Gemini prompt of `_create_polish_prompt`. -/
def createPolishPrompt (rough_review restaurant_name : String) : String :=
  "Polish this restaurant review to sound natural and authentic. Fix any issues but keep the same positive tone and key details. Return ONLY the polished review text, no explanations or formatting.\n\nISSUES TO FIX:\n- Remove repeated phrases or sentences\n- Improve sentence flow and transitions\n- Make it sound like a real person wrote it\n- Fix awkward phrasing\n- Ensure varied vocabulary\n\nKEEP THE SAME:\n- All specific details (dishes, atmosphere, occasions)\n- Positive tone and rating level\n- Personal touches and experiences\n- Length (around 60-100 words)\n\nRESTAURANT: " ++ restaurant_name ++ "\n\nORIGINAL REVIEW:\n" ++ rough_review ++ "\n\nPOLISHED REVIEW:"

/-- `GeminiReviewPolisher.polish_review`.  `hasClient` is whether an API key
was configured (`self.client` non-null); `apiResp` is the external call
outcome, `none` meaning the call raised. -/
def polishReview (hasClient : Bool) (apiResp : Option String)
    (rough_review restaurant_name : String) : PolishResult :=
  if hasClient = false then
    { polished_review := rough_review, original_review := rough_review,
      polished := false, cost_estimate := 0, improvement_made := none }
  else
    match apiResp with
    | none =>
      { polished_review := rough_review, original_review := rough_review,
        polished := false, cost_estimate := 0, improvement_made := none }
    | some responseText =>
      let polished_text : String := ⟨stripWs responseText.data⟩
      let prompt := createPolishPrompt rough_review restaurant_name
      let input_tokens : ℚ := ((wordsOf prompt.data).length : ℚ) * (1.3 : ℚ)
      let output_tokens : ℚ := ((wordsOf polished_text.data).length : ℚ) * (1.3 : ℚ)
      { polished_review := polished_text, original_review := rough_review,
        polished := true,
        cost_estimate := ((input_tokens + output_tokens) / 1000) * (0.000375 : ℚ),
        improvement_made := some (polished_text.length ≠ rough_review.length) }

/-! ## Mode B uniqueness score (spec-modelled) -/

/-- Modelled from the spec: the personalized Mode B generator variant is not
in `src/` (routes.py only calls its six-argument `generate_review` and falls
back on `TypeError`); per the spec its uniqueness score is base 0.6, plus 0.2
if `specialDetail` is present, plus 0.2 if `standoutDetail` is present,
capped at 1.0. -/
def uniquenessScore (specialDetail standoutDetail : Option String) : ℚ :=
  min ((0.6 : ℚ) + (if specialDetail.isSome then (0.2 : ℚ) else 0)
        + (if standoutDetail.isSome then (0.2 : ℚ) else 0)) (1.0 : ℚ)

/-! ## Rating handling in the calling routes -/

/-- The `routes.generate_review_api` validation `1 <= rating <= 5`. -/
def apiRatingValid (rating : Int) : Bool := 1 ≤ rating && rating ≤ 5

/-- The `routes.submit_review` gate `if rating >= 4`: `true` selects the
public-review path, `false` the private negative-feedback path. -/
def submitIsPublicPath (rating : Int) : Bool := 4 ≤ rating

/-! ## General helper lemmas -/

theorem pick_mem {α : Type} (l : List α) (i : Nat) (d : α) (h : l ≠ []) :
    pick l i d ∈ l := by
  have hlen : 0 < l.length := List.length_pos.mpr h
  have hmod : i % l.length < l.length := Nat.mod_lt _ hlen
  rw [pick, List.getD_eq_getElem?_getD, List.getElem?_eq_getElem hmod]
  exact List.getElem_mem hmod

theorem lookup_isSome_of_mem_keys (vars : List (String × String)) (k : String)
    (h : k ∈ vars.map (·.1)) : (vars.lookup k).isSome := by
  induction vars with
  | nil => simp at h
  | cons kv rest ih =>
    rcases List.mem_cons.mp h with h1 | h2
    · simp [List.lookup, h1.symm]
    · by_cases hk : k = kv.1
      · simp [List.lookup, hk]
      · simp only [List.lookup, beq_eq_false_iff_ne.mpr hk]
        exact ih h2

theorem foldl_append_eq_filter (p : String → Bool) (K : List String) :
    ∀ acc, K.foldl (fun acc k => if p k then acc ++ [k] else acc) acc
      = acc ++ K.filter p := by
  induction K with
  | nil => intro acc; simp
  | cons k rest ih =>
    intro acc
    by_cases hk : p k <;> simp [List.foldl, hk, ih, List.filter]

/-! ## Lemmas towards idempotence of the Text Finisher (C5) -/

theorem char_eq_iff_toNat {c d : Char} : c = d ↔ c.toNat = d.toNat :=
  ⟨fun h => h ▸ rfl, fun h => Char.ext (UInt32.toNat.inj h)⟩

theorem charToNat_ofNat (n : Nat) (h : n < 55296) : (Char.ofNat n).toNat = n := by
  have hv : n.isValidChar := Or.inl h
  simp only [Char.ofNat, hv, dif_pos]
  simp [Char.ofNatAux, Char.toNat, UInt32.toNat, UInt32.ofNatCore, BitVec.toNat_ofNat]

theorem toNat_upChar (c : Char) :
    (upChar c).toNat
      = if 97 ≤ c.toNat ∧ c.toNat ≤ 122 then c.toNat - 32 else c.toNat := by
  rw [upChar]
  by_cases h : 97 ≤ c.toNat ∧ c.toNat ≤ 122
  · rw [if_pos h, if_pos h, charToNat_ofNat _ (by omega)]
  · rw [if_neg h, if_neg h]

theorem isWs_toNat (c : Char) :
    isWs c = true ↔ (c.toNat = 32 ∨ c.toNat = 9 ∨ c.toNat = 10
      ∨ c.toNat = 13 ∨ c.toNat = 11 ∨ c.toNat = 12) := by
  rw [isWs]
  simp only [Bool.or_eq_true, decide_eq_true_eq, char_eq_iff_toNat,
    show (' ' : Char).toNat = 32 from rfl, show ('\t' : Char).toNat = 9 from rfl,
    show ('\n' : Char).toNat = 10 from rfl, show ('\r' : Char).toNat = 13 from rfl,
    show ('\x0b' : Char).toNat = 11 from rfl, show ('\x0c' : Char).toNat = 12 from rfl]
  tauto

theorem isPunctC_toNat (c : Char) :
    isPunctC c = true ↔ (c.toNat = 46 ∨ c.toNat = 33 ∨ c.toNat = 63) := by
  rw [isPunctC]
  simp only [Bool.or_eq_true, decide_eq_true_eq, char_eq_iff_toNat,
    show ('.' : Char).toNat = 46 from rfl, show ('!' : Char).toNat = 33 from rfl,
    show ('?' : Char).toNat = 63 from rfl]
  tauto

theorem isWs_upChar (c : Char) : isWs (upChar c) = isWs c := by
  have ht := toNat_upChar c
  by_cases h : 97 ≤ c.toNat ∧ c.toNat ≤ 122
  · rw [if_pos h] at ht
    have hA : isWs (upChar c) = false := by
      rw [Bool.eq_false_iff]
      intro hT
      rw [isWs_toNat] at hT
      omega
    have hB : isWs c = false := by
      rw [Bool.eq_false_iff]
      intro hT
      rw [isWs_toNat] at hT
      omega
    rw [hA, hB]
  · rw [upChar, if_neg h]

theorem isPunctC_upChar (c : Char) : isPunctC (upChar c) = isPunctC c := by
  have ht := toNat_upChar c
  by_cases h : 97 ≤ c.toNat ∧ c.toNat ≤ 122
  · rw [if_pos h] at ht
    have hA : isPunctC (upChar c) = false := by
      rw [Bool.eq_false_iff]
      intro hT
      rw [isPunctC_toNat] at hT
      omega
    have hB : isPunctC c = false := by
      rw [Bool.eq_false_iff]
      intro hT
      rw [isPunctC_toNat] at hT
      omega
    rw [hA, hB]
  · rw [upChar, if_neg h]

theorem upChar_upChar (c : Char) : upChar (upChar c) = upChar c := by
  have ht := toNat_upChar c
  by_cases h : 97 ≤ c.toNat ∧ c.toNat ≤ 122
  · rw [if_pos h] at ht
    have h2 : ¬(97 ≤ (upChar c).toNat ∧ (upChar c).toNat ≤ 122) := by omega
    conv_lhs => rw [upChar]
    rw [if_neg h2]
  · have h1 : upChar c = c := by rw [upChar, if_neg h]
    rw [h1, h1]

theorem upChar_eq_dot (c : Char) : (upChar c = '.') = (c = '.') := by
  have ht := toNat_upChar c
  by_cases h : 97 ≤ c.toNat ∧ c.toNat ≤ 122
  · rw [if_pos h] at ht
    have hA : ¬ upChar c = '.' := by
      rw [char_eq_iff_toNat]
      show ¬ _ = 46
      omega
    have hB : ¬ c = '.' := by
      rw [char_eq_iff_toNat]
      show ¬ _ = 46
      omega
    simp [hA, hB]
  · rw [upChar, if_neg h]

theorem upChar_eq_space (c : Char) : (upChar c = ' ') = (c = ' ') := by
  have ht := toNat_upChar c
  by_cases h : 97 ≤ c.toNat ∧ c.toNat ≤ 122
  · rw [if_pos h] at ht
    have hA : ¬ upChar c = ' ' := by
      rw [char_eq_iff_toNat]
      show ¬ _ = 32
      omega
    have hB : ¬ c = ' ' := by
      rw [char_eq_iff_toNat]
      show ¬ _ = 32
      omega
    simp [hA, hB]
  · rw [upChar, if_neg h]

/-! ### Adjacent-pair predicates and their algebra -/

/-- No two adjacent whitespace characters. -/
def noWW (a b : Char) : Bool := !(isWs a && isWs b)

/-- No whitespace character immediately before terminal punctuation. -/
def noWP (a b : Char) : Bool := !(isWs a && isPunctC b)

/-- No occurrence of the separator `". "`. -/
def noDSb (a b : Char) : Bool := !(decide (a = '.') && decide (b = ' '))

/-- Every whitespace character is a plain space. -/
def wsOnlySpace (l : List Char) : Prop := ∀ c ∈ l, isWs c = true → c = ' '

/-- The last character, if any, is not whitespace. -/
def lastNotWs (l : List Char) : Prop := ∀ c, l.getLast? = some c → isWs c = false

/-- The first character, if any, is not whitespace. -/
def headNotWs (l : List Char) : Prop := ∀ c, l.head? = some c → isWs c = false

theorem pairsOK_cons_iff (p : Char → Char → Bool) (a : Char) (l : List Char) :
    pairsOK p (a :: l) = true
      ↔ (∀ b, l.head? = some b → p a b = true) ∧ pairsOK p l = true := by
  cases l with
  | nil => simp [pairsOK]
  | cons b l' =>
    rw [pairsOK, Bool.and_eq_true]
    constructor
    · rintro ⟨h1, h2⟩
      exact ⟨fun b' hb' => by cases hb'; exact h1, h2⟩
    · rintro ⟨h1, h2⟩
      exact ⟨h1 b rfl, h2⟩

theorem pairsOK_tail (p : Char → Char → Bool) (a : Char) (l : List Char)
    (h : pairsOK p (a :: l) = true) : pairsOK p l = true :=
  ((pairsOK_cons_iff p a l).mp h).2

theorem pairsOK_append (p : Char → Char → Bool) (xs ys : List Char)
    (hx : pairsOK p xs = true) (hy : pairsOK p ys = true)
    (hb : ∀ a b, xs.getLast? = some a → ys.head? = some b → p a b = true) :
    pairsOK p (xs ++ ys) = true := by
  induction xs with
  | nil => simpa using hy
  | cons a xs' ih =>
    rw [List.cons_append, pairsOK_cons_iff]
    rcases (pairsOK_cons_iff p a xs').mp hx with ⟨hpair, htail⟩
    cases xs' with
    | nil =>
      refine ⟨fun b hbhead => hb a b rfl hbhead, by simpa using hy⟩
    | cons a2 xs'' =>
      refine ⟨fun b hbhead => ?_, ?_⟩
      · rw [List.cons_append, List.head?_cons, Option.some.injEq] at hbhead
        cases hbhead
        exact hpair a2 rfl
      · exact ih htail (fun a' b' ha' hb' => hb a' b' (by rw [List.getLast?_cons_cons]; exact ha') hb')

/-! ### Splitting and joining on the `". "` separator -/

theorem joinDS_cons (s : List Char) (ss : List (List Char)) (h : ss ≠ []) :
    joinDS (s :: ss) = s ++ '.' :: ' ' :: joinDS ss := by
  cases ss with
  | nil => exact absurd rfl h
  | cons t ss' => rfl

theorem joinDS_cons_head (c : Char) (s : List Char) (ss : List (List Char)) :
    joinDS ((c :: s) :: ss) = c :: joinDS (s :: ss) := by
  cases ss <;> rfl

theorem splitDS_ne_nil (l : List Char) : splitDS l ≠ [] := by
  induction l using splitDS.induct with
  | case1 => simp [splitDS]
  | case2 c => simp [splitDS]
  | case3 a b rest h ih => simp [splitDS, h]
  | case4 a b rest h ih =>
    simp only [splitDS, if_neg h]
    cases hsp : splitDS (b :: rest) with
    | nil => exact absurd hsp ih
    | cons s ss => simp [List.modifyHead]

theorem joinDS_splitDS (l : List Char) : joinDS (splitDS l) = l := by
  induction l using splitDS.induct with
  | case1 => rfl
  | case2 c => rfl
  | case3 a b rest h ih =>
    obtain ⟨ha, hb⟩ := h
    subst ha
    subst hb
    rw [show splitDS ('.' :: ' ' :: rest) = [] :: splitDS rest from by
          simp [splitDS],
        joinDS_cons [] (splitDS rest) (splitDS_ne_nil rest), List.nil_append, ih]
  | case4 a b rest h ih =>
    rw [show splitDS (a :: b :: rest) = (splitDS (b :: rest)).modifyHead (a :: ·) from by
          simp [splitDS, h]]
    cases hsp : splitDS (b :: rest) with
    | nil => exact absurd hsp (splitDS_ne_nil _)
    | cons s ss =>
      rw [List.modifyHead, joinDS_cons_head, ← hsp, ih]

theorem splitDS_cons_cons_pos (a b : Char) (rest : List Char) (h : a = '.' ∧ b = ' ') :
    splitDS (a :: b :: rest) = [] :: splitDS rest := by
  simp [splitDS, h]

theorem splitDS_cons_cons_neg (a b : Char) (rest : List Char) (h : ¬(a = '.' ∧ b = ' ')) :
    splitDS (a :: b :: rest) = (splitDS (b :: rest)).modifyHead (a :: ·) := by
  simp [splitDS, h]

theorem splitDS_head (l s : List Char) (ss : List (List Char))
    (hsp : splitDS l = s :: ss) : s = [] ∨ s.head? = l.head? := by
  rcases l with _ | ⟨a, _ | ⟨b, rest⟩⟩
  · left
    rw [show splitDS [] = [[]] from rfl] at hsp
    cases hsp
    rfl
  · right
    rw [show splitDS [a] = [[a]] from rfl] at hsp
    cases hsp
    rfl
  · by_cases hc : a = '.' ∧ b = ' '
    · rw [splitDS_cons_cons_pos a b rest hc] at hsp
      cases hsp
      exact Or.inl rfl
    · rw [splitDS_cons_cons_neg a b rest hc] at hsp
      cases hsp0 : splitDS (b :: rest) with
      | nil => exact absurd hsp0 (splitDS_ne_nil _)
      | cons s0 ss0 =>
        rw [hsp0, List.modifyHead] at hsp
        cases hsp
        exact Or.inr rfl

theorem splitDS_head_empty (l : List Char) (ss : List (List Char))
    (hsp : splitDS l = [] :: ss) : l = [] ∨ ∃ r, l = '.' :: ' ' :: r := by
  rcases l with _ | ⟨a, _ | ⟨b, rest⟩⟩
  · exact Or.inl rfl
  · rw [show splitDS [a] = [[a]] from rfl] at hsp
    cases hsp
  · by_cases hc : a = '.' ∧ b = ' '
    · exact Or.inr ⟨rest, by rw [hc.1, hc.2]⟩
    · rw [splitDS_cons_cons_neg a b rest hc] at hsp
      cases hsp0 : splitDS (b :: rest) with
      | nil => exact absurd hsp0 (splitDS_ne_nil _)
      | cons s0 ss0 =>
        rw [hsp0, List.modifyHead] at hsp
        cases hsp

theorem splitDS_mem_mem (l : List Char) :
    ∀ s ∈ splitDS l, ∀ c ∈ s, c ∈ l := by
  induction l using splitDS.induct with
  | case1 =>
    intro s hs c hc
    rw [show splitDS [] = [[]] from rfl] at hs
    simp at hs
    simp [hs] at hc
  | case2 a =>
    intro s hs c hc
    rw [show splitDS [a] = [[a]] from rfl] at hs
    simp at hs
    simp [hs] at hc
    simp [hc]
  | case3 a b rest h ih =>
    intro s hs c hc
    rw [splitDS_cons_cons_pos a b rest h] at hs
    rcases List.mem_cons.mp hs with h1 | h1
    · simp [h1] at hc
    · have := ih s h1 c hc
      simp [this]
  | case4 a b rest h ih =>
    intro s hs c hc
    rw [splitDS_cons_cons_neg a b rest h] at hs
    cases hsp0 : splitDS (b :: rest) with
    | nil => exact absurd hsp0 (splitDS_ne_nil _)
    | cons s0 ss0 =>
      rw [hsp0, List.modifyHead] at hs
      rcases List.mem_cons.mp hs with h1 | h1
      · subst h1
        rcases List.mem_cons.mp hc with h2 | h2
        · simp [h2]
        · have := ih s0 (by rw [hsp0]; exact List.mem_cons_self _ _) c h2
          simp [this]
      · have := ih s (by rw [hsp0]; exact List.mem_cons_of_mem _ h1) c hc
        simp [this]

theorem splitDS_pairs (p : Char → Char → Bool) (l : List Char)
    (hp : pairsOK p l = true) : ∀ s ∈ splitDS l, pairsOK p s = true := by
  induction l using splitDS.induct with
  | case1 =>
    intro s hs
    rw [show splitDS [] = [[]] from rfl] at hs
    simp at hs
    simp [hs, pairsOK]
  | case2 a =>
    intro s hs
    rw [show splitDS [a] = [[a]] from rfl] at hs
    simp at hs
    simp [hs, pairsOK]
  | case3 a b rest h ih =>
    intro s hs
    rw [splitDS_cons_cons_pos a b rest h] at hs
    rcases List.mem_cons.mp hs with h1 | h1
    · simp [h1, pairsOK]
    · exact ih (pairsOK_tail p b rest (pairsOK_tail p a (b :: rest) hp)) s h1
  | case4 a b rest h ih =>
    intro s hs
    rw [splitDS_cons_cons_neg a b rest h] at hs
    have htail := pairsOK_tail p a (b :: rest) hp
    cases hsp0 : splitDS (b :: rest) with
    | nil => exact absurd hsp0 (splitDS_ne_nil _)
    | cons s0 ss0 =>
      rw [hsp0, List.modifyHead] at hs
      rcases List.mem_cons.mp hs with h1 | h1
      · subst h1
        rw [pairsOK_cons_iff]
        refine ⟨?_, ih htail s0 (by rw [hsp0]; exact List.mem_cons_self _ _)⟩
        intro d hd
        rcases splitDS_head (b :: rest) s0 ss0 hsp0 with he | he
        · subst he
          cases hd
        · rw [he] at hd
          cases hd
          exact ((pairsOK_cons_iff p a (b :: rest)).mp hp).1 b rfl
      · exact ih htail s (by rw [hsp0]; exact List.mem_cons_of_mem _ h1)

theorem splitDS_noDS (l : List Char) : ∀ s ∈ splitDS l, pairsOK noDSb s = true := by
  induction l using splitDS.induct with
  | case1 =>
    intro s hs
    rw [show splitDS [] = [[]] from rfl] at hs
    simp at hs
    simp [hs, pairsOK]
  | case2 a =>
    intro s hs
    rw [show splitDS [a] = [[a]] from rfl] at hs
    simp at hs
    simp [hs, pairsOK]
  | case3 a b rest h ih =>
    intro s hs
    rw [splitDS_cons_cons_pos a b rest h] at hs
    rcases List.mem_cons.mp hs with h1 | h1
    · simp [h1, pairsOK]
    · exact ih s h1
  | case4 a b rest h ih =>
    intro s hs
    rw [splitDS_cons_cons_neg a b rest h] at hs
    cases hsp0 : splitDS (b :: rest) with
    | nil => exact absurd hsp0 (splitDS_ne_nil _)
    | cons s0 ss0 =>
      rw [hsp0, List.modifyHead] at hs
      rcases List.mem_cons.mp hs with h1 | h1
      · subst h1
        rw [pairsOK_cons_iff]
        refine ⟨?_, ih s0 (by rw [hsp0]; exact List.mem_cons_self _ _)⟩
        intro d hd
        rcases splitDS_head (b :: rest) s0 ss0 hsp0 with he | he
        · subst he
          cases hd
        · rw [he] at hd
          cases hd
          rw [noDSb]
          rcases Decidable.em (a = '.') with ha | ha
          · have hb2 : ¬ b = ' ' := fun hb2 => h ⟨ha, hb2⟩
            simp [hb2]
          · simp [ha]
      · exact ih s (by rw [hsp0]; exact List.mem_cons_of_mem _ h1)

theorem pairsOK_first (p : Char → Char → Bool) (a b : Char) (rest : List Char)
    (h : pairsOK p (a :: b :: rest) = true) : p a b = true :=
  ((pairsOK_cons_iff p a (b :: rest)).mp h).1 b rfl

theorem splitDS_tail_head (l : List Char)
    (hWW : pairsOK noWW l = true) (hWP : pairsOK noWP l = true) :
    ∀ s ∈ (splitDS l).tail, ∀ c, s.head? = some c →
      isWs c = false ∧ isPunctC c = false := by
  induction l using splitDS.induct with
  | case1 =>
    intro s hs
    rw [show splitDS [] = [[]] from rfl] at hs
    simp at hs
  | case2 a =>
    intro s hs
    rw [show splitDS [a] = [[a]] from rfl] at hs
    simp at hs
  | case3 a b rest h ih =>
    intro s hs c hc
    obtain ⟨ha, hb⟩ := h
    subst ha
    subst hb
    rw [splitDS_cons_cons_pos '.' ' ' rest ⟨rfl, rfl⟩, List.tail_cons] at hs
    have hWW2 : pairsOK noWW (' ' :: rest) = true := pairsOK_tail _ _ _ hWW
    have hWP2 : pairsOK noWP (' ' :: rest) = true := pairsOK_tail _ _ _ hWP
    cases hsp0 : splitDS rest with
    | nil => exact absurd hsp0 (splitDS_ne_nil _)
    | cons s0 ss0 =>
      rw [hsp0] at hs
      rcases List.mem_cons.mp hs with h1 | h1
      · subst h1
        rcases splitDS_head rest s ss0 hsp0 with he | he
        · subst he
          cases hc
        · rw [he] at hc
          have hw := ((pairsOK_cons_iff noWW ' ' rest).mp hWW2).1 c hc
          have hp := ((pairsOK_cons_iff noWP ' ' rest).mp hWP2).1 c hc
          rw [noWW] at hw
          rw [noWP] at hp
          simp only [show isWs ' ' = true from rfl, Bool.true_and, Bool.not_eq_true'] at hw hp
          exact ⟨hw, hp⟩
      · exact ih (pairsOK_tail _ _ _ hWW2) (pairsOK_tail _ _ _ hWP2) s
          (by rw [hsp0, List.tail_cons]; exact h1) c hc
  | case4 a b rest h ih =>
    intro s hs c hc
    rw [splitDS_cons_cons_neg a b rest h] at hs
    cases hsp0 : splitDS (b :: rest) with
    | nil => exact absurd hsp0 (splitDS_ne_nil _)
    | cons s0 ss0 =>
      rw [hsp0, List.modifyHead, List.tail_cons] at hs
      exact ih (pairsOK_tail _ _ _ hWW) (pairsOK_tail _ _ _ hWP) s
        (by rw [hsp0, List.tail_cons]; exact hs) c hc

theorem lastNotWs_cons_cons (a b : Char) (rest : List Char)
    (h : lastNotWs (a :: b :: rest)) : lastNotWs (b :: rest) := by
  intro c hc
  exact h c (by rw [List.getLast?_cons_cons]; exact hc)

theorem splitDS_tail_ne (l : List Char)
    (hWP : pairsOK noWP l = true) (hLast : lastNotWs l) :
    ∀ s ∈ (splitDS l).tail, s ≠ [] := by
  induction l using splitDS.induct with
  | case1 =>
    intro s hs
    rw [show splitDS [] = [[]] from rfl] at hs
    simp at hs
  | case2 a =>
    intro s hs
    rw [show splitDS [a] = [[a]] from rfl] at hs
    simp at hs
  | case3 a b rest h ih =>
    intro s hs
    obtain ⟨ha, hb⟩ := h
    subst ha
    subst hb
    rw [splitDS_cons_cons_pos '.' ' ' rest ⟨rfl, rfl⟩, List.tail_cons] at hs
    have hrest : rest ≠ [] := by
      intro hr
      subst hr
      have := hLast ' ' (by rfl)
      simp [isWs] at this
    have hLast2 : lastNotWs rest := by
      have h1 := lastNotWs_cons_cons _ _ _ hLast
      cases rest with
      | nil => exact absurd rfl hrest
      | cons r0 r1 => exact lastNotWs_cons_cons _ _ _ h1
    cases hsp0 : splitDS rest with
    | nil => exact absurd hsp0 (splitDS_ne_nil _)
    | cons s0 ss0 =>
      rw [hsp0] at hs
      rcases List.mem_cons.mp hs with h1 | h1
      · subst h1
        intro hempty
        subst hempty
        rcases splitDS_head_empty rest ss0 hsp0 with he | ⟨r, he⟩
        · exact absurd he hrest
        · subst he
          have hx := pairsOK_tail _ _ _ hWP
          have hy := pairsOK_first noWP ' ' '.' (' ' :: r) hx
          exact absurd hy (by decide)
      · exact ih (pairsOK_tail _ _ _ (pairsOK_tail _ _ _ hWP)) hLast2 s
          (by rw [hsp0, List.tail_cons]; exact h1)
  | case4 a b rest h ih =>
    intro s hs
    rw [splitDS_cons_cons_neg a b rest h] at hs
    cases hsp0 : splitDS (b :: rest) with
    | nil => exact absurd hsp0 (splitDS_ne_nil _)
    | cons s0 ss0 =>
      rw [hsp0, List.modifyHead, List.tail_cons] at hs
      exact ih (pairsOK_tail _ _ _ hWP) (lastNotWs_cons_cons _ _ _ hLast) s
        (by rw [hsp0, List.tail_cons]; exact hs)

theorem splitDS_last_notWs (l : List Char)
    (hWP : pairsOK noWP l = true) (hLast : lastNotWs l) :
    ∀ s ∈ splitDS l, lastNotWs s := by
  induction l using splitDS.induct with
  | case1 =>
    intro s hs
    rw [show splitDS [] = [[]] from rfl] at hs
    simp at hs
    subst hs
    intro c hc
    cases hc
  | case2 a =>
    intro s hs
    rw [show splitDS [a] = [[a]] from rfl] at hs
    simp at hs
    subst hs
    exact hLast
  | case3 a b rest h ih =>
    intro s hs
    obtain ⟨ha, hb⟩ := h
    subst ha
    subst hb
    rw [splitDS_cons_cons_pos '.' ' ' rest ⟨rfl, rfl⟩] at hs
    rcases List.mem_cons.mp hs with h1 | h1
    · subst h1
      intro c hc
      cases hc
    · cases rest with
      | nil =>
        rw [show splitDS [] = [[]] from rfl] at h1
        simp at h1
        subst h1
        intro c hc
        cases hc
      | cons r0 r1 =>
        have hLast2 : lastNotWs (r0 :: r1) :=
          lastNotWs_cons_cons _ _ _ (lastNotWs_cons_cons _ _ _ hLast)
        exact ih (pairsOK_tail _ _ _ (pairsOK_tail _ _ _ hWP)) hLast2 s h1
  | case4 a b rest h ih =>
    intro s hs
    rw [splitDS_cons_cons_neg a b rest h] at hs
    cases hsp0 : splitDS (b :: rest) with
    | nil => exact absurd hsp0 (splitDS_ne_nil _)
    | cons s0 ss0 =>
      rw [hsp0, List.modifyHead] at hs
      have htail : pairsOK noWP (b :: rest) = true := pairsOK_tail _ _ _ hWP
      have hLast2 : lastNotWs (b :: rest) := lastNotWs_cons_cons _ _ _ hLast
      rcases List.mem_cons.mp hs with h1 | h1
      · subst h1
        cases hs0 : s0 with
        | nil =>
          subst hs0
          intro c hc
          rw [show ([a] : List Char).getLast? = some a from rfl] at hc
          have hac : a = c := by injection hc
          subst hac
          rcases splitDS_head_empty (b :: rest) ss0 hsp0 with he | ⟨r, he⟩
          · cases he
          · have hb' : b = '.' := by
              have h2 := congrArg List.head? he
              simpa using h2
            subst hb'
            have h3 := pairsOK_first noWP a '.' rest hWP
            rw [noWP] at h3
            simp only [show isPunctC '.' = true from rfl, Bool.and_true, Bool.not_eq_true'] at h3
            exact h3
        | cons d s0' =>
          subst hs0
          have hl := ih htail hLast2 (d :: s0') (by rw [hsp0]; exact List.mem_cons_self _ _)
          intro c hc
          rw [List.getLast?_cons_cons] at hc
          exact hl c hc
      · exact ih htail hLast2 s (by rw [hsp0]; exact List.mem_cons_of_mem _ h1)

theorem splitDS_of_noDS (s : List Char) (h : pairsOK noDSb s = true) :
    splitDS s = [s] := by
  induction s with
  | nil => rfl
  | cons a s' ih =>
    cases s' with
    | nil => rfl
    | cons b s'' =>
      have hpair := pairsOK_first noDSb a b s'' h
      have hcond : ¬(a = '.' ∧ b = ' ') := by
        rintro ⟨ha, hb⟩
        subst ha
        subst hb
        simp [noDSb] at hpair
      rw [splitDS_cons_cons_neg a b s'' hcond, ih (pairsOK_tail _ _ _ h), List.modifyHead]

theorem splitDS_append_sep (s v : List Char) (h : pairsOK noDSb s = true) :
    splitDS (s ++ '.' :: ' ' :: v) = s :: splitDS v := by
  induction s with
  | nil =>
    rw [List.nil_append]
    exact splitDS_cons_cons_pos '.' ' ' v ⟨rfl, rfl⟩
  | cons a s' ih =>
    cases s' with
    | nil =>
      have hcond : ¬(a = '.' ∧ ('.' : Char) = ' ') := by
        rintro ⟨-, hb⟩
        cases hb
      rw [List.cons_append, List.nil_append,
        splitDS_cons_cons_neg a '.' (' ' :: v) hcond,
        splitDS_cons_cons_pos '.' ' ' v ⟨rfl, rfl⟩, List.modifyHead]
    | cons b s'' =>
      have hpair := pairsOK_first noDSb a b s'' h
      have hcond : ¬(a = '.' ∧ b = ' ') := by
        rintro ⟨ha, hb⟩
        subst ha
        subst hb
        simp [noDSb] at hpair
      rw [List.cons_append, show (b :: s'') ++ '.' :: ' ' :: v = b :: (s'' ++ '.' :: ' ' :: v) from rfl,
        splitDS_cons_cons_neg a b (s'' ++ '.' :: ' ' :: v) hcond,
        show b :: (s'' ++ '.' :: ' ' :: v) = (b :: s'') ++ '.' :: ' ' :: v from rfl,
        ih (pairsOK_tail _ _ _ h), List.modifyHead]

theorem splitDS_joinDS (segs : List (List Char)) (hne : segs ≠ [])
    (h : ∀ s ∈ segs, pairsOK noDSb s = true) :
    splitDS (joinDS segs) = segs := by
  induction segs with
  | nil => exact absurd rfl hne
  | cons s ss ih =>
    cases ss with
    | nil => exact splitDS_of_noDS s (h s (List.mem_cons_self _ _))
    | cons t ss' =>
      rw [joinDS_cons s (t :: ss') (by simp),
        splitDS_append_sep s (joinDS (t :: ss')) (h s (List.mem_cons_self _ _)),
        ih (by simp) (fun u hu => h u (List.mem_cons_of_mem _ hu))]

theorem head?_append_ne_nil {α : Type} (xs ys : List α) (h : xs ≠ []) :
    (xs ++ ys).head? = xs.head? := by
  cases xs with
  | nil => exact absurd rfl h
  | cons a xs' => rfl

/-! ### Well-formed segments and joining them back -/

/-- A segment as produced by the capitalization step: nonempty, fixed by
`capSeg`, whitespace-normal, free of the separator, not ending in
whitespace. -/
def segOK (s : List Char) : Prop :=
  s ≠ [] ∧ capSeg s = s ∧ wsOnlySpace s ∧ pairsOK noWW s = true
    ∧ pairsOK noWP s = true ∧ pairsOK noDSb s = true ∧ lastNotWs s

/-- A segment whose first character is neither whitespace nor punctuation
(true of every segment that follows a separator). -/
def headNF (s : List Char) : Prop :=
  ∀ c, s.head? = some c → isWs c = false ∧ isPunctC c = false

theorem getLast?_append_ne_nil {α : Type} (xs ys : List α) (h : ys ≠ []) :
    (xs ++ ys).getLast? = ys.getLast? := by
  induction xs with
  | nil => rfl
  | cons a xs' ih =>
    cases hys : ys with
    | nil => exact absurd hys h
    | cons b ys' =>
      subst hys
      rw [List.cons_append]
      cases hx : xs' ++ b :: ys' with
      | nil => exact absurd (List.append_eq_nil.mp hx).2 (by simp)
      | cons z zs =>
        rw [List.getLast?_cons_cons, ← hx, ih]

theorem joinDS_good (ss : List (List Char)) :
    ∀ s : List Char, segOK s → (∀ t ∈ ss, segOK t ∧ headNF t) →
    wsOnlySpace (joinDS (s :: ss)) ∧ pairsOK noWW (joinDS (s :: ss)) = true
    ∧ pairsOK noWP (joinDS (s :: ss)) = true ∧ lastNotWs (joinDS (s :: ss))
    ∧ (joinDS (s :: ss)).head? = s.head? ∧ splitDS (joinDS (s :: ss)) = s :: ss
    ∧ joinDS (s :: ss) ≠ [] := by
  induction ss with
  | nil =>
    intro s hs _
    obtain ⟨hne, _, hwso, hww, hwp, hds, hlast⟩ := hs
    exact ⟨hwso, hww, hwp, hlast, rfl, splitDS_of_noDS s hds, hne⟩
  | cons t ss' ih =>
    intro s hs hss
    obtain ⟨hne, _, hwso, hww, hwp, hds, hlast⟩ := hs
    obtain ⟨ht, htnf⟩ := hss t (List.mem_cons_self _ _)
    have hss' : ∀ u ∈ ss', segOK u ∧ headNF u :=
      fun u hu => hss u (List.mem_cons_of_mem _ hu)
    obtain ⟨ihwso, ihww, ihwp, ihlast, ihhead, ihsplit, ihne⟩ := ih t ht hss'
    rw [joinDS_cons s (t :: ss') (by simp)]
    set w' := joinDS (t :: ss') with hw'
    have hthead : ∀ c, w'.head? = some c → isWs c = false ∧ isPunctC c = false := by
      intro c hc
      rw [ihhead] at hc
      exact htnf c hc
    have hsep_ww : pairsOK noWW ('.' :: ' ' :: w') = true := by
      rw [pairsOK_cons_iff]
      refine ⟨fun b hb => by cases hb; decide, ?_⟩
      rw [pairsOK_cons_iff]
      refine ⟨fun b hb => ?_, ihww⟩
      have := (hthead b hb).1
      simp [noWW, this]
    have hsep_wp : pairsOK noWP ('.' :: ' ' :: w') = true := by
      rw [pairsOK_cons_iff]
      refine ⟨fun b hb => by cases hb; decide, ?_⟩
      rw [pairsOK_cons_iff]
      refine ⟨fun b hb => ?_, ihwp⟩
      have := (hthead b hb).2
      simp [noWP, this]
    refine ⟨?_, ?_, ?_, ?_, ?_, ?_, ?_⟩
    · intro c hc hcw
      rcases List.mem_append.mp hc with h1 | h1
      · exact hwso c h1 hcw
      · rcases List.mem_cons.mp h1 with h2 | h2
        · subst h2
          simp [isWs] at hcw
        · rcases List.mem_cons.mp h2 with h3 | h3
          · exact h3
          · exact ihwso c h3 hcw
    · refine pairsOK_append noWW s ('.' :: ' ' :: w') hww hsep_ww ?_
      intro a b ha hb
      cases hb
      simp [noWW, show isWs '.' = false from rfl]
    · refine pairsOK_append noWP s ('.' :: ' ' :: w') hwp hsep_wp ?_
      intro a b ha hb
      cases hb
      have := hlast a ha
      simp [noWP, this]
    · intro c hc
      rw [getLast?_append_ne_nil s ('.' :: ' ' :: w') (by simp),
        show ('.' :: ' ' :: w') = ['.', ' '] ++ w' from rfl,
        getLast?_append_ne_nil _ _ ihne] at hc
      exact ihlast c hc
    · exact head?_append_ne_nil s _ hne
    · rw [splitDS_append_sep s w' hds, ihsplit]
    · cases s with
      | nil => exact absurd rfl hne
      | cons a s' => simp

/-! ### Capitalization preserves segment well-formedness -/

theorem capSeg_capSeg (t : List Char) : capSeg (capSeg t) = capSeg t := by
  cases t with
  | nil => rfl
  | cons c cs =>
    cases cs with
    | nil => simp [capSeg, upChar_upChar]
    | cons d r => simp [capSeg, upChar_upChar]

theorem capSeg_ne (t : List Char) (h : t ≠ []) : capSeg t ≠ [] := by
  cases t with
  | nil => exact absurd rfl h
  | cons c cs => cases cs <;> simp [capSeg]

theorem capSeg_head? (t : List Char) (c : Char) (h : t.head? = some c) :
    (capSeg t).head? = some (upChar c) := by
  cases t with
  | nil => cases h
  | cons a cs =>
    cases h
    cases cs <;> rfl

theorem capSeg_segOK (t : List Char) (h1 : t ≠ []) (h2 : wsOnlySpace t)
    (h3 : pairsOK noWW t = true) (h4 : pairsOK noWP t = true)
    (h5 : pairsOK noDSb t = true) (h6 : lastNotWs t) : segOK (capSeg t) := by
  refine ⟨capSeg_ne t h1, capSeg_capSeg t, ?_, ?_, ?_, ?_, ?_⟩
  · cases t with
    | nil => exact absurd rfl h1
    | cons c cs =>
      cases cs with
      | nil =>
        intro x hx hxw
        simp only [capSeg, List.mem_singleton] at hx
        subst hx
        rw [isWs_upChar] at hxw
        rw [h2 c (List.mem_cons_self _ _) hxw]
        rfl
      | cons d r =>
        intro x hx hxw
        simp only [capSeg] at hx
        rcases List.mem_cons.mp hx with hx1 | hx1
        · subst hx1
          rw [isWs_upChar] at hxw
          rw [h2 c (List.mem_cons_self _ _) hxw]
          rfl
        · exact h2 x (List.mem_cons_of_mem _ hx1) hxw
  · cases t with
    | nil => exact absurd rfl h1
    | cons c cs =>
      cases cs with
      | nil => rfl
      | cons d r =>
        rw [show capSeg (c :: d :: r) = upChar c :: d :: r from rfl, pairsOK_cons_iff]
        refine ⟨fun b hb => ?_, pairsOK_tail _ _ _ h3⟩
        cases hb
        have := pairsOK_first noWW c d r h3
        rw [noWW, isWs_upChar]
        rw [noWW] at this
        exact this
  · cases t with
    | nil => exact absurd rfl h1
    | cons c cs =>
      cases cs with
      | nil => rfl
      | cons d r =>
        rw [show capSeg (c :: d :: r) = upChar c :: d :: r from rfl, pairsOK_cons_iff]
        refine ⟨fun b hb => ?_, pairsOK_tail _ _ _ h4⟩
        cases hb
        have := pairsOK_first noWP c d r h4
        rw [noWP, isWs_upChar]
        rw [noWP] at this
        exact this
  · cases t with
    | nil => exact absurd rfl h1
    | cons c cs =>
      cases cs with
      | nil => rfl
      | cons d r =>
        rw [show capSeg (c :: d :: r) = upChar c :: d :: r from rfl, pairsOK_cons_iff]
        refine ⟨fun b hb => ?_, pairsOK_tail _ _ _ h5⟩
        cases hb
        have := pairsOK_first noDSb c d r h5
        have hdd : decide (upChar c = '.') = decide (c = '.') :=
          decide_eq_decide.mpr (iff_of_eq (upChar_eq_dot c))
        rw [noDSb, hdd]
        rw [noDSb] at this
        exact this
  · cases t with
    | nil => exact absurd rfl h1
    | cons c cs =>
      cases cs with
      | nil =>
        intro x hx
        rw [show capSeg [c] = [upChar c] from rfl] at hx
        rw [show ([upChar c] : List Char).getLast? = some (upChar c) from rfl] at hx
        have hxc : upChar c = x := by injection hx
        subst hxc
        rw [isWs_upChar]
        exact h6 c rfl
      | cons d r =>
        intro x hx
        rw [show capSeg (c :: d :: r) = upChar c :: d :: r from rfl,
          List.getLast?_cons_cons] at hx
        exact h6 x (by rw [List.getLast?_cons_cons]; exact hx)

theorem capSeg_headNF (t : List Char) (h : headNF t) : headNF (capSeg t) := by
  intro c hc
  cases t with
  | nil => cases hc
  | cons a cs =>
    have ha := h a rfl
    have hh : (capSeg (a :: cs)).head? = some (upChar a) := capSeg_head? _ a rfl
    rw [hh] at hc
    have hac : upChar a = c := by injection hc
    subst hac
    rw [isWs_upChar, isPunctC_upChar]
    exact ha

theorem capSeg_append_bang (t : List Char) (h1 : t ≠ []) (h2 : capSeg t = t) :
    capSeg (t ++ ['!']) = t ++ ['!'] := by
  cases t with
  | nil => exact absurd rfl h1
  | cons c cs =>
    have hup : upChar c = c := by
      cases cs with
      | nil =>
        rw [show capSeg [c] = [upChar c] from rfl] at h2
        injection h2
      | cons d r =>
        rw [show capSeg (c :: d :: r) = upChar c :: d :: r from rfl] at h2
        injection h2
    cases cs with
    | nil => simp [capSeg, hup]
    | cons d r => simp [capSeg, hup]

/-! ### Appending the final bang to the last segment -/

def appLast : List (List Char) → List (List Char)
  | [] => []
  | [s] => [s ++ ['!']]
  | s :: ss => s :: appLast ss

theorem appLast_ne_nil (ss : List (List Char)) (h : ss ≠ []) : appLast ss ≠ [] := by
  cases ss with
  | nil => exact absurd rfl h
  | cons s ss' => cases ss' <;> simp [appLast]

theorem joinDS_appLast (ss : List (List Char)) (h : ss ≠ []) :
    joinDS (appLast ss) = joinDS ss ++ ['!'] := by
  induction ss with
  | nil => exact absurd rfl h
  | cons s ss' ih =>
    cases ss' with
    | nil => rfl
    | cons t ss'' =>
      rw [show appLast (s :: t :: ss'') = s :: appLast (t :: ss'') from rfl,
        joinDS_cons s (appLast (t :: ss'')) (appLast_ne_nil _ (by simp)),
        ih (by simp), joinDS_cons s (t :: ss'') (by simp)]
      simp

theorem appLast_mem (Q : List Char → Prop) (ss : List (List Char))
    (hQ : ∀ t ∈ ss, Q t) (hclose : ∀ t, Q t → Q (t ++ ['!'])) :
    ∀ s ∈ appLast ss, Q s := by
  induction ss with
  | nil => intro s hs; cases hs
  | cons t ss' ih =>
    cases ss' with
    | nil =>
      intro s hs
      rw [show appLast [t] = [t ++ ['!']] from rfl] at hs
      rcases List.mem_singleton.mp hs with h
      subst h
      exact hclose t (hQ t (List.mem_cons_self _ _))
    | cons u ss'' =>
      intro s hs
      rw [show appLast (t :: u :: ss'') = t :: appLast (u :: ss'') from rfl] at hs
      rcases List.mem_cons.mp hs with h1 | h1
      · subst h1
        exact hQ s (List.mem_cons_self _ _)
      · exact ih (fun v hv => hQ v (List.mem_cons_of_mem _ hv)) s h1

/-! ### Each finisher stage fixes already-finished text -/

theorem collapseAux_fix (l : List Char) :
    wsOnlySpace l → pairsOK noWW l = true → collapseAux false l = l := by
  induction l with
  | nil => intro _ _; rfl
  | cons c cs ih =>
    intro h2 h3
    have h2' : wsOnlySpace cs := fun x hx => h2 x (List.mem_cons_of_mem _ hx)
    have h3' : pairsOK noWW cs = true := pairsOK_tail _ _ _ h3
    by_cases hc : isWs c = true
    · have hceq : c = ' ' := h2 c (List.mem_cons_self _ _) hc
      rw [show collapseAux false (c :: cs) = ' ' :: collapseAux true cs from by
        simp [collapseAux, hc]]
      rw [hceq]
      cases cs with
      | nil => rfl
      | cons d cs' =>
        have hd : isWs d = false := by
          have := pairsOK_first noWW c d cs' h3
          rw [noWW, hc] at this
          simpa using this
        have hih := ih h2' h3'
        rw [show collapseAux false (d :: cs') = d :: collapseAux false cs' from by
          simp [collapseAux, hd]] at hih
        injection hih with _ h5
        rw [show collapseAux true (d :: cs') = d :: collapseAux false cs' from by
          simp [collapseAux, hd], h5]
    · rw [show collapseAux false (c :: cs) = c :: collapseAux false cs from by
        simp [collapseAux, hc], ih h2' h3']

theorem nnwp_cons_nonws (d : Char) (cs : List Char) (hd : isWs d = false) :
    nextNonWsPunct (d :: cs) = isPunctC d := by
  simp [nextNonWsPunct, List.dropWhile, hd]

theorem rmWsPunct_fix (l : List Char)
    (h3 : pairsOK noWW l = true) (h4 : pairsOK noWP l = true) : rmWsPunct l = l := by
  induction l with
  | nil => rfl
  | cons c cs ih =>
    have hguard : (isWs c && nextNonWsPunct cs) = false := by
      by_cases hc : isWs c = true
      · cases cs with
        | nil => simp [nextNonWsPunct, List.dropWhile]
        | cons d cs' =>
          have hd : isWs d = false := by
            have := pairsOK_first noWW c d cs' h3
            rw [noWW, hc] at this
            simpa using this
          have hp : isPunctC d = false := by
            have := pairsOK_first noWP c d cs' h4
            rw [noWP, hc] at this
            simpa using this
          rw [nnwp_cons_nonws d cs' hd, hp, Bool.and_false]
      · rw [Bool.not_eq_true] at hc
        rw [hc, Bool.false_and]
    rw [show rmWsPunct (c :: cs) = c :: rmWsPunct cs from by
      simp [rmWsPunct, hguard], ih (pairsOK_tail _ _ _ h3) (pairsOK_tail _ _ _ h4)]

theorem dropWhile_isWs_fix (l : List Char) (h : headNotWs l) : l.dropWhile isWs = l := by
  cases l with
  | nil => rfl
  | cons c cs =>
    have := h c rfl
    simp [List.dropWhile, this]

theorem rstripWs_fix (l : List Char) (h : lastNotWs l) : rstripWs l = l := by
  induction l with
  | nil => rfl
  | cons c cs ih =>
    cases cs with
    | nil =>
      have := h c rfl
      simp [rstripWs, this]
    | cons d cs' =>
      have hih := ih (lastNotWs_cons_cons _ _ _ h)
      rw [show rstripWs (c :: d :: cs') = if (rstripWs (d :: cs') = [] && isWs c) then []
          else c :: rstripWs (d :: cs') from by simp [rstripWs], hih]
      simp

theorem stripWs_fix (l : List Char) (hh : headNotWs l) (hl : lastNotWs l) :
    stripWs l = l := by
  rw [stripWs, dropWhile_isWs_fix l hh, rstripWs_fix l hl]

theorem map_id_of_mem {α : Type} (f : α → α) (ss : List α)
    (h : ∀ s ∈ ss, f s = s) : ss.map f = ss := by
  induction ss with
  | nil => rfl
  | cons s ss' ih =>
    rw [List.map_cons, h s (List.mem_cons_self _ _),
      ih (fun t ht => h t (List.mem_cons_of_mem _ ht))]

theorem capStep_fix (w : List Char)
    (hP4 : ∀ s ∈ splitDS w, s ≠ [] ∧ capSeg s = s) : capStep w = w := by
  rw [capStep,
    show (splitDS w).filter (· ≠ []) = splitDS w from
      List.filter_eq_self.mpr (fun s hs => by simp [(hP4 s hs).1]),
    map_id_of_mem capSeg (splitDS w) (fun s hs => (hP4 s hs).2),
    joinDS_splitDS]

theorem bangStep_fix (w : List Char) (h : endsPunct w = true) : bangStep w = w := by
  rw [bangStep, if_pos h]

/-! ### Each finisher stage establishes its invariants -/

theorem collapseAux_true_head (l : List Char) :
    ∀ c, (collapseAux true l).head? = some c → isWs c = false := by
  induction l with
  | nil => intro c hc; cases hc
  | cons d ds ih =>
    intro c hc
    by_cases hd : isWs d = true
    · rw [show collapseAux true (d :: ds) = collapseAux true ds from by
        simp [collapseAux, hd]] at hc
      exact ih c hc
    · rw [show collapseAux true (d :: ds) = d :: collapseAux false ds from by
        simp [collapseAux, hd]] at hc
      have : d = c := by injection hc
      subst this
      simpa using hd

theorem collapseAux_good (l : List Char) : ∀ b : Bool,
    wsOnlySpace (collapseAux b l) ∧ pairsOK noWW (collapseAux b l) = true := by
  induction l with
  | nil => intro b; exact ⟨fun c hc => absurd hc (by simp [collapseAux]), rfl⟩
  | cons c cs ih =>
    intro b
    by_cases hc : isWs c = true
    · cases b with
      | true =>
        rw [show collapseAux true (c :: cs) = collapseAux true cs from by
          simp [collapseAux, hc]]
        exact ih true
      | false =>
        rw [show collapseAux false (c :: cs) = ' ' :: collapseAux true cs from by
          simp [collapseAux, hc]]
        obtain ⟨ih1, ih2⟩ := ih true
        refine ⟨?_, ?_⟩
        · intro x hx hxw
          rcases List.mem_cons.mp hx with h1 | h1
          · exact h1
          · exact ih1 x h1 hxw
        · rw [pairsOK_cons_iff]
          refine ⟨fun d hd => ?_, ih2⟩
          have := collapseAux_true_head cs d hd
          simp [noWW, this]
    · rw [show collapseAux b (c :: cs) = c :: collapseAux false cs from by
        simp [collapseAux, hc]]
      obtain ⟨ih1, ih2⟩ := ih false
      refine ⟨?_, ?_⟩
      · intro x hx hxw
        rcases List.mem_cons.mp hx with h1 | h1
        · subst h1
          exact absurd hxw (by simp [hc])
        · exact ih1 x h1 hxw
      · rw [pairsOK_cons_iff]
        refine ⟨fun d hd => ?_, ih2⟩
        simp [noWW, hc]

theorem rmWsPunct_good (l : List Char) (h2 : wsOnlySpace l)
    (h3 : pairsOK noWW l = true) :
    wsOnlySpace (rmWsPunct l) ∧ pairsOK noWW (rmWsPunct l) = true
      ∧ pairsOK noWP (rmWsPunct l) = true := by
  induction l with
  | nil => exact ⟨fun c hc => absurd hc (by simp [rmWsPunct]), rfl, rfl⟩
  | cons c cs ih =>
    have h2' : wsOnlySpace cs := fun x hx => h2 x (List.mem_cons_of_mem _ hx)
    have h3' : pairsOK noWW cs = true := pairsOK_tail _ _ _ h3
    obtain ⟨ih1, ih2, ih3⟩ := ih h2' h3'
    by_cases hg : (isWs c && nextNonWsPunct cs) = true
    · rw [show rmWsPunct (c :: cs) = rmWsPunct cs from by simp [rmWsPunct, hg]]
      exact ⟨ih1, ih2, ih3⟩
    · rw [show rmWsPunct (c :: cs) = c :: rmWsPunct cs from by simp [rmWsPunct, hg]]
      have hpair : ∀ d, (rmWsPunct cs).head? = some d →
          noWW c d = true ∧ noWP c d = true := by
        intro d hd
        by_cases hc : isWs c = true
        · have hnn : nextNonWsPunct cs = false := by
            cases hx : nextNonWsPunct cs
            · rfl
            · exact absurd (by rw [hc, hx]; rfl) hg
          cases cs with
          | nil => rw [show rmWsPunct ([] : List Char) = [] from rfl] at hd; cases hd
          | cons e cs' =>
            have he : isWs e = false := by
              have := pairsOK_first noWW c e cs' h3
              rw [noWW, hc] at this
              simpa using this
            have hguard2 : (isWs e && nextNonWsPunct cs') = false := by
              rw [he, Bool.false_and]
            rw [show rmWsPunct (e :: cs') = e :: rmWsPunct cs' from by
              simp [rmWsPunct, hguard2]] at hd
            have hde : e = d := by injection hd
            subst hde
            have hp : isPunctC e = false := by
              have := nnwp_cons_nonws e cs' he
              rw [hnn] at this
              exact this.symm
            constructor
            · simp [noWW, he]
            · simp [noWP, hp]
        · rw [Bool.not_eq_true] at hc
          constructor
          · simp [noWW, hc]
          · simp [noWP, hc]
      refine ⟨?_, ?_, ?_⟩
      · intro x hx hxw
        rcases List.mem_cons.mp hx with h1 | h1
        · subst h1
          exact h2 x (List.mem_cons_self _ _) hxw
        · exact ih1 x h1 hxw
      · rw [pairsOK_cons_iff]
        exact ⟨fun d hd => (hpair d hd).1, ih2⟩
      · rw [pairsOK_cons_iff]
        exact ⟨fun d hd => (hpair d hd).2, ih3⟩

theorem dropWhile_isWs_head (l : List Char) :
    ∀ c, ((l.dropWhile isWs).head? = some c) → isWs c = false := by
  induction l with
  | nil => intro c hc; cases hc
  | cons d ds ih =>
    intro c hc
    by_cases hd : isWs d = true
    · rw [List.dropWhile_cons_of_pos (by simp [hd])] at hc
      exact ih c hc
    · rw [List.dropWhile_cons_of_neg (by simp [hd])] at hc
      have : d = c := by injection hc
      subst this
      simpa using hd

theorem dropWhile_isWs_mem (l : List Char) :
    ∀ c ∈ l.dropWhile isWs, c ∈ l := by
  induction l with
  | nil => intro c hc; cases hc
  | cons d ds ih =>
    intro c hc
    by_cases hd : isWs d = true
    · rw [List.dropWhile_cons_of_pos (by simp [hd])] at hc
      exact List.mem_cons_of_mem _ (ih c hc)
    · rw [List.dropWhile_cons_of_neg (by simp [hd])] at hc
      exact hc

theorem dropWhile_isWs_pairs (p : Char → Char → Bool) (l : List Char)
    (h : pairsOK p l = true) : pairsOK p (l.dropWhile isWs) = true := by
  induction l with
  | nil => rfl
  | cons d ds ih =>
    by_cases hd : isWs d = true
    · rw [List.dropWhile_cons_of_pos (by simp [hd])]
      exact ih (pairsOK_tail _ _ _ h)
    · rw [List.dropWhile_cons_of_neg (by simp [hd])]
      exact h

theorem dropWhile_isWs_last (l : List Char) (h : lastNotWs l) :
    lastNotWs (l.dropWhile isWs) := by
  induction l with
  | nil => intro c hc; cases hc
  | cons d ds ih =>
    by_cases hd : isWs d = true
    · rw [List.dropWhile_cons_of_pos (by simp [hd])]
      cases ds with
      | nil =>
        have := h d rfl
        rw [this] at hd
        cases hd
      | cons e ds' => exact ih (lastNotWs_cons_cons _ _ _ h)
    · rw [List.dropWhile_cons_of_neg (by simp [hd])]
      exact h

theorem rstripWs_head (l : List Char) :
    ∀ c, (rstripWs l).head? = some c → l.head? = some c := by
  intro c hc
  cases l with
  | nil => cases hc
  | cons d ds =>
    by_cases hif : (rstripWs ds = [] && isWs d) = true
    · rw [show rstripWs (d :: ds) = [] from by simp [rstripWs]; simpa using hif] at hc
      cases hc
    · rw [show rstripWs (d :: ds) = d :: rstripWs ds from by
        simp only [rstripWs]
        split
        · next hcond => exact absurd hcond (by simpa using hif)
        · rfl] at hc
      have : d = c := by injection hc
      simp [this]

theorem rstripWs_last (l : List Char) : lastNotWs (rstripWs l) := by
  induction l with
  | nil => intro c hc; cases hc
  | cons d ds ih =>
    by_cases hif : (rstripWs ds = [] && isWs d) = true
    · rw [show rstripWs (d :: ds) = [] from by simp [rstripWs]; simpa using hif]
      intro c hc
      cases hc
    · rw [show rstripWs (d :: ds) = d :: rstripWs ds from by
        simp only [rstripWs]
        split
        · next hcond => exact absurd hcond (by simpa using hif)
        · rfl]
      cases hr : rstripWs ds with
      | nil =>
        intro c hc
        have hdc : d = c := by
          rw [show ([d] : List Char).getLast? = some d from rfl] at hc
          injection hc
        subst hdc
        rw [hr] at hif
        simpa using hif
      | cons e r' =>
        intro c hc
        rw [List.getLast?_cons_cons] at hc
        rw [hr] at ih
        exact ih c hc

theorem rstripWs_mem (l : List Char) : ∀ c ∈ rstripWs l, c ∈ l := by
  induction l with
  | nil => intro c hc; cases hc
  | cons d ds ih =>
    intro c hc
    by_cases hif : (rstripWs ds = [] && isWs d) = true
    · rw [show rstripWs (d :: ds) = [] from by simp [rstripWs]; simpa using hif] at hc
      cases hc
    · rw [show rstripWs (d :: ds) = d :: rstripWs ds from by
        simp only [rstripWs]
        split
        · next hcond => exact absurd hcond (by simpa using hif)
        · rfl] at hc
      rcases List.mem_cons.mp hc with h1 | h1
      · subst h1
        exact List.mem_cons_self _ _
      · exact List.mem_cons_of_mem _ (ih c h1)

theorem rstripWs_pairs (p : Char → Char → Bool) (l : List Char)
    (h : pairsOK p l = true) : pairsOK p (rstripWs l) = true := by
  induction l with
  | nil => rfl
  | cons d ds ih =>
    by_cases hif : (rstripWs ds = [] && isWs d) = true
    · rw [show rstripWs (d :: ds) = [] from by simp [rstripWs]; simpa using hif]
      rfl
    · rw [show rstripWs (d :: ds) = d :: rstripWs ds from by
        simp only [rstripWs]
        split
        · next hcond => exact absurd hcond (by simpa using hif)
        · rfl]
      rw [pairsOK_cons_iff]
      refine ⟨fun b hb => ?_, ih (pairsOK_tail _ _ _ h)⟩
      have hhead := rstripWs_head ds b hb
      cases ds with
      | nil => cases hhead
      | cons e ds' =>
        have : e = b := by injection hhead
        subst this
        exact pairsOK_first p d e ds' h

theorem stripWs_good (l : List Char) (h2 : wsOnlySpace l)
    (h3 : pairsOK noWW l = true) (h4 : pairsOK noWP l = true) :
    wsOnlySpace (stripWs l) ∧ pairsOK noWW (stripWs l) = true
      ∧ pairsOK noWP (stripWs l) = true ∧ headNotWs (stripWs l)
      ∧ lastNotWs (stripWs l) := by
  refine ⟨?_, ?_, ?_, ?_, ?_⟩
  · intro c hc hcw
    exact h2 c (dropWhile_isWs_mem l c (rstripWs_mem _ c hc)) hcw
  · exact rstripWs_pairs noWW _ (dropWhile_isWs_pairs noWW l h3)
  · exact rstripWs_pairs noWP _ (dropWhile_isWs_pairs noWP l h4)
  · intro c hc
    exact dropWhile_isWs_head l c (rstripWs_head _ c hc)
  · exact rstripWs_last _

theorem capStep_good (y : List Char) (h1 : wsOnlySpace y)
    (h2 : pairsOK noWW y = true) (h3 : pairsOK noWP y = true)
    (h4 : headNotWs y) (h5 : lastNotWs y) :
    capStep y = []
    ∨ (wsOnlySpace (capStep y) ∧ pairsOK noWW (capStep y) = true
       ∧ pairsOK noWP (capStep y) = true ∧ headNotWs (capStep y)
       ∧ lastNotWs (capStep y) ∧ (∀ s ∈ splitDS (capStep y), segOK s)) := by
  by_cases hy : y = []
  · left
    subst hy
    rfl
  · right
    obtain ⟨s0, ss0, hsp⟩ : ∃ s0 ss0, splitDS y = s0 :: ss0 := by
      cases h : splitDS y with
      | nil => exact absurd h (splitDS_ne_nil y)
      | cons s0 ss0 => exact ⟨s0, ss0, rfl⟩
    have hA : ∀ s ∈ splitDS y, pairsOK noDSb s = true := splitDS_noDS y
    have hB : ∀ s ∈ splitDS y, wsOnlySpace s :=
      fun s hs c hc => h1 c (splitDS_mem_mem y s hs c hc)
    have hC1 : ∀ s ∈ splitDS y, pairsOK noWW s = true := splitDS_pairs noWW y h2
    have hC2 : ∀ s ∈ splitDS y, pairsOK noWP s = true := splitDS_pairs noWP y h3
    have hD : ∀ s ∈ splitDS y, lastNotWs s := splitDS_last_notWs y h3 h5
    have hE : ∀ s ∈ (splitDS y).tail, headNF s := splitDS_tail_head y h2 h3
    have hF : ∀ s ∈ (splitDS y).tail, s ≠ [] := splitDS_tail_ne y h3 h5
    have hcap : ∀ s ∈ splitDS y, s ≠ [] → segOK (capSeg s) := fun s hs hne =>
      capSeg_segOK s hne (hB s hs) (hC1 s hs) (hC2 s hs) (hA s hs) (hD s hs)
    have hmapgood : ∀ u ∈ (ss0.map capSeg), segOK u ∧ headNF u := by
      intro u hu
      rcases List.mem_map.mp hu with ⟨t, ht, hut⟩
      subst hut
      have htmem : t ∈ splitDS y := by
        rw [hsp]
        exact List.mem_cons_of_mem _ ht
      have httail : t ∈ (splitDS y).tail := by
        rw [hsp, List.tail_cons]
        exact ht
      exact ⟨hcap t htmem (hF t httail), capSeg_headNF t (hE t httail)⟩
    by_cases h0 : s0 = []
    · subst h0
      obtain ⟨t1, ts, hss0⟩ : ∃ t1 ts, ss0 = t1 :: ts := by
        cases h : ss0 with
        | nil =>
          subst h
          rcases splitDS_head_empty y [] hsp with he | ⟨r, he⟩
          · exact absurd he hy
          · subst he
            rw [splitDS_cons_cons_pos '.' ' ' r ⟨rfl, rfl⟩] at hsp
            have : splitDS r = [] := by injection hsp
            exact absurd this (splitDS_ne_nil r)
        | cons t1 ts => exact ⟨t1, ts, rfl⟩
      subst hss0
      have hcompute : capStep y = joinDS (capSeg t1 :: ts.map capSeg) := by
        rw [capStep, hsp,
          show ([] :: t1 :: ts).filter (· ≠ []) = (t1 :: ts).filter (· ≠ []) from by simp,
          show (t1 :: ts).filter (· ≠ []) = t1 :: ts from
            List.filter_eq_self.mpr (fun s hs => by
              simp [hF s (by rw [hsp, List.tail_cons]; exact hs)]),
          List.map_cons]
      have htail1 : t1 ∈ (splitDS y).tail := by
        rw [hsp, List.tail_cons]
        exact List.mem_cons_self _ _
      have ht1mem : t1 ∈ splitDS y := by
        rw [hsp]
        exact List.mem_cons_of_mem _ (List.mem_cons_self _ _)
      have hseg1 : segOK (capSeg t1) := hcap t1 ht1mem (hF t1 htail1)
      have hmap' : ∀ u ∈ ts.map capSeg, segOK u ∧ headNF u := by
        intro u hu
        exact hmapgood u (by
          rcases List.mem_map.mp hu with ⟨t, ht, hut⟩
          exact List.mem_map.mpr ⟨t, List.mem_cons_of_mem _ ht, hut⟩)
      obtain ⟨g1, g2, g3, g4, g5, g6, g7⟩ := joinDS_good (ts.map capSeg) (capSeg t1) hseg1 hmap'
      rw [hcompute]
      refine ⟨g1, g2, g3, ?_, g4, ?_⟩
      · intro c hc
        rw [g5] at hc
        exact ((capSeg_headNF t1 (hE t1 htail1)) c hc).1
      · intro s hs
        rw [g6] at hs
        rcases List.mem_cons.mp hs with hs1 | hs1
        · subst hs1
          exact hseg1
        · exact (hmap' s hs1).1
    · have hcompute : capStep y = joinDS (capSeg s0 :: ss0.map capSeg) := by
        rw [capStep, hsp,
          show (s0 :: ss0).filter (· ≠ []) = s0 :: ss0 from
            List.filter_eq_self.mpr (fun s hs => by
              rcases List.mem_cons.mp hs with hs1 | hs1
              · subst hs1
                simp [h0]
              · simp [hF s (by rw [hsp, List.tail_cons]; exact hs1)]),
          List.map_cons]
      have hs0mem : s0 ∈ splitDS y := by
        rw [hsp]
        exact List.mem_cons_self _ _
      have hseg0 : segOK (capSeg s0) := hcap s0 hs0mem h0
      obtain ⟨g1, g2, g3, g4, g5, g6, g7⟩ :=
        joinDS_good (ss0.map capSeg) (capSeg s0) hseg0 hmapgood
      rw [hcompute]
      refine ⟨g1, g2, g3, ?_, g4, ?_⟩
      · intro c hc
        rw [g5] at hc
        rcases splitDS_head y s0 ss0 hsp with he | he
        · exact absurd he h0
        · obtain ⟨c0, hc0⟩ : ∃ c0, s0.head? = some c0 := by
            cases hh : s0.head? with
            | none => rw [hh] at he; cases hy2 : y with
              | nil => exact absurd hy2 hy
              | cons a ys =>
                rw [hy2] at he
                cases he.symm
            | some c0 => exact ⟨c0, rfl⟩
          rw [capSeg_head? s0 c0 hc0] at hc
          have hcc : upChar c0 = c := by injection hc
          subst hcc
          rw [isWs_upChar]
          rw [hc0] at he
          exact h4 c0 he.symm
      · intro s hs
        rw [g6] at hs
        rcases List.mem_cons.mp hs with hs1 | hs1
        · subst hs1
          exact hseg0
        · exact (hmapgood s hs1).1

/-- The invariants characterizing fully finished text: every stage of the
finisher fixes any string satisfying them. -/
def finisherInv (w : List Char) : Prop :=
  wsOnlySpace w ∧ pairsOK noWW w = true ∧ pairsOK noWP w = true
    ∧ headNotWs w ∧ lastNotWs w
    ∧ (∀ s ∈ splitDS w, s ≠ [] ∧ capSeg s = s)
    ∧ endsPunct w = true

theorem bangStep_good (z : List Char)
    (h : z = [] ∨ (wsOnlySpace z ∧ pairsOK noWW z = true ∧ pairsOK noWP z = true
        ∧ headNotWs z ∧ lastNotWs z ∧ (∀ s ∈ splitDS z, segOK s))) :
    finisherInv (bangStep z) := by
  rcases h with hz | ⟨h1, h2, h3, h4, h5, h6⟩
  · subst hz
    rw [show bangStep [] = ['!'] from rfl]
    refine ⟨?_, rfl, rfl, ?_, ?_, ?_, rfl⟩
    · intro c hc hcw
      rcases List.mem_singleton.mp hc with h
      subst h
      simp [isWs] at hcw
    · intro c hc
      have : '!' = c := by injection hc
      subst this
      rfl
    · intro c hc
      have : '!' = c := by injection hc
      subst this
      rfl
    · intro s hs
      rw [show splitDS ['!'] = [['!']] from rfl] at hs
      rcases List.mem_singleton.mp hs with h
      subst h
      exact ⟨by simp, by decide⟩
  · have hzne : z ≠ [] := by
      intro hz
      subst hz
      have := h6 [] (by rw [show splitDS ([] : List Char) = [[]] from rfl]; exact List.mem_singleton.mpr rfl)
      exact this.1 rfl
    by_cases hP : endsPunct z = true
    · rw [bangStep_fix z hP]
      exact ⟨h1, h2, h3, h4, h5, fun s hs => ⟨(h6 s hs).1, (h6 s hs).2.1⟩, hP⟩
    · rw [show bangStep z = z ++ ['!'] from by rw [bangStep, if_neg hP]]
      have hQ : ∀ s ∈ splitDS z, s ≠ [] ∧ capSeg s = s ∧ pairsOK noDSb s = true :=
        fun s hs => ⟨(h6 s hs).1, (h6 s hs).2.1, (h6 s hs).2.2.2.2.2.1⟩
      have hQclose : ∀ t, (t ≠ [] ∧ capSeg t = t ∧ pairsOK noDSb t = true) →
          ((t ++ ['!']) ≠ [] ∧ capSeg (t ++ ['!']) = t ++ ['!']
            ∧ pairsOK noDSb (t ++ ['!']) = true) := by
        rintro t ⟨ht1, ht2, ht3⟩
        refine ⟨by simp, capSeg_append_bang t ht1 ht2, ?_⟩
        refine pairsOK_append noDSb t ['!'] ht3 rfl ?_
        intro a b ha hb
        cases hb
        simp [noDSb]
      have happ : ∀ s ∈ appLast (splitDS z),
          s ≠ [] ∧ capSeg s = s ∧ pairsOK noDSb s = true :=
        appLast_mem _ (splitDS z) hQ hQclose
      have hsplit_w : splitDS (z ++ ['!']) = appLast (splitDS z) := by
        rw [show z ++ ['!'] = joinDS (appLast (splitDS z)) from by
          rw [joinDS_appLast (splitDS z) (splitDS_ne_nil z), joinDS_splitDS]]
        exact splitDS_joinDS (appLast (splitDS z))
          (appLast_ne_nil _ (splitDS_ne_nil z))
          (fun s hs => (happ s hs).2.2)
      refine ⟨?_, ?_, ?_, ?_, ?_, ?_, ?_⟩
      · intro c hc hcw
        rcases List.mem_append.mp hc with hc1 | hc1
        · exact h1 c hc1 hcw
        · rcases List.mem_singleton.mp hc1 with h
          subst h
          simp [isWs] at hcw
      · refine pairsOK_append noWW z ['!'] h2 rfl ?_
        intro a b ha hb
        cases hb
        simp [noWW, show isWs '!' = false from rfl]
      · refine pairsOK_append noWP z ['!'] h3 rfl ?_
        intro a b ha hb
        cases hb
        have := h5 a ha
        simp [noWP, this]
      · intro c hc
        rw [head?_append_ne_nil z ['!'] hzne] at hc
        exact h4 c hc
      · intro c hc
        rw [getLast?_append_ne_nil z ['!'] (by simp)] at hc
        have : '!' = c := by injection hc
        subst this
        rfl
      · intro s hs
        rw [hsplit_w] at hs
        exact ⟨(happ s hs).1, (happ s hs).2.1⟩
      · rw [endsPunct, getLast?_append_ne_nil z ['!'] (by simp)]
        rfl

theorem enhanceCore_fix (w : List Char) (h : finisherInv w) : enhanceCore w = w := by
  obtain ⟨h1, h2, h3, h4, h5, h6, h7⟩ := h
  rw [enhanceCore, collapseWs, collapseAux_fix w h1 h2, rmWsPunct_fix w h2 h3,
    stripWs_fix w h4 h5, capStep_fix w h6, bangStep_fix w h7]

theorem enhanceCore_inv (l : List Char) : finisherInv (enhanceCore l) := by
  obtain ⟨c1, c2⟩ := collapseAux_good l false
  obtain ⟨r1, r2, r3⟩ := rmWsPunct_good (collapseAux false l) c1 c2
  obtain ⟨s1, s2, s3, s4, s5⟩ := stripWs_good (rmWsPunct (collapseAux false l)) r1 r2 r3
  rw [enhanceCore, collapseWs]
  apply bangStep_good
  rcases capStep_good (stripWs (rmWsPunct (collapseAux false l))) s1 s2 s3 s4 s5 with hz | hfacts
  · exact Or.inl hz
  · exact Or.inr hfacts

/-- Specification-side sentence counter: the number of positions that start a
maximal run of `[.!?]`, i.e. punctuation positions whose predecessor (if any)
is not punctuation.  Each regex match of `[.!?]+` starts at exactly one such
position. -/
def specRunCount (l : List Char) : Nat :=
  (List.range l.length).countP (fun i =>
    isPunctC (l.getD i ' ') && (decide (i = 0) || !isPunctC (l.getD (i - 1) ' ')))

theorem countRunsAux_spec (l : List Char) : ∀ prev : Bool,
    countRunsAux prev l = (List.range l.length).countP (fun i =>
      isPunctC (l.getD i ' ')
        && (if i = 0 then !prev else !isPunctC (l.getD (i - 1) ' '))) := by
  induction l with
  | nil => intro prev; simp [countRunsAux]
  | cons c rest ih =>
    intro prev
    rw [List.length_cons, List.range_succ_eq_map, List.countP_cons, List.countP_map]
    have hpred : ((fun i => isPunctC ((c :: rest).getD i ' ')
          && (if i = 0 then !prev else !isPunctC ((c :: rest).getD (i - 1) ' ')))
            ∘ (· + 1))
        = (fun i => isPunctC (rest.getD i ' ')
          && (if i = 0 then !(isPunctC c) else !isPunctC (rest.getD (i - 1) ' '))) := by
      funext i
      cases i with
      | zero => simp
      | succ k => simp
    rw [hpred, ← ih (isPunctC c)]
    by_cases hc : isPunctC c <;> by_cases hp : prev <;>
      (simp [countRunsAux, hc, hp]; try omega)

theorem countPunctRuns_eq_spec (l : List Char) : countPunctRuns l = specRunCount l := by
  rw [countPunctRuns, countRunsAux_spec l false, specRunCount]
  congr 1
  funext i
  cases i <;> simp

/-! ## Claim theorems -/

/-- C5: the Text Finisher is idempotent - applying `_enhance_review` twice to
any string yields the same result as applying it once. -/
theorem C5_finisher_idempotent (s : String) :
    enhanceReview (enhanceReview s) = enhanceReview s :=
  congrArg String.mk (enhanceCore_fix (enhanceCore s.data) (enhanceCore_inv s.data))

/-- C6: the matched-keyword list of the analyzer is exactly the sublist of the
restaurant keyword list whose elements occur case-insensitively in the review
text, in original order, and the SEO count is its length. -/
theorem C6_keyword_matching (K : List String) (T : String) :
    (analyzeReview T K).keywords_found
        = K.filter (fun k => containsSub (pyLower k).data (pyLower T).data)
    ∧ (analyzeReview T K).seo_keywords_used
        = (K.filter (fun k => containsSub (pyLower k).data (pyLower T).data)).length := by
  have h := foldl_append_eq_filter
    (fun k => containsSub (pyLower k).data (pyLower T).data) K []
  constructor <;> simp [analyzeReview, keywordsFoundLoop, h]

/-- C8: the analyzer counts sentences as maximal runs of `[.!?]`, computes the
mean words per sentence as word count over `max(sentences, 1)`, and labels
readability Good exactly when that mean is strictly below 20 (equivalently,
word count < 20 * max(sentences, 1)), Complex otherwise. -/
theorem C8_analyzer_metrics (T : String) (K : List String) :
    (analyzeReview T K).word_count = (wordsOf T.data).length
    ∧ (analyzeReview T K).sentences = specRunCount T.data
    ∧ (analyzeReview T K).avg_words_per_sentence
        = ((analyzeReview T K).word_count : ℚ) / ((max (analyzeReview T K).sentences 1 : ℕ) : ℚ)
    ∧ ((analyzeReview T K).readability = "Good"
        ↔ (analyzeReview T K).word_count < 20 * max (analyzeReview T K).sentences 1)
    ∧ ((analyzeReview T K).readability = "Complex"
        ↔ ¬ (analyzeReview T K).word_count < 20 * max (analyzeReview T K).sentences 1) := by
  have hiff : ((((wordsOf T.data).length : ℚ)
        / ((max (countPunctRuns T.data) 1 : ℕ) : ℚ)) < 20)
      ↔ (wordsOf T.data).length < 20 * max (countPunctRuns T.data) 1 := by
    have hpos : (0 : ℚ) < ((max (countPunctRuns T.data) 1 : ℕ) : ℚ) := by
      have : (1 : ℕ) ≤ max (countPunctRuns T.data) 1 := le_max_right _ _
      exact_mod_cast Nat.lt_of_lt_of_le Nat.zero_lt_one this
    rw [div_lt_iff₀ hpos]
    constructor
    · intro h; exact_mod_cast h
    · intro h; exact_mod_cast h
  refine ⟨rfl, countPunctRuns_eq_spec T.data, rfl, ?_, ?_⟩ <;>
    by_cases h : (((wordsOf T.data).length : ℚ)
        / ((max (countPunctRuns T.data) 1 : ℕ) : ℚ)) < 20 <;>
      simp [analyzeReview, h, hiff.symm]

/-- C3: the Mode B uniqueness score equals 0.6 plus 0.2 per supplied optional
detail field, capped at 1.0; it always lies in [0.6, 1.0] and strictly
increases when either optional field goes from absent to present. -/
theorem C3_uniqueness_score (s t : Option String) (d : String) :
    uniquenessScore s t
      = min ((0.6 : ℚ) + (if s.isSome then (0.2 : ℚ) else 0)
          + (if t.isSome then (0.2 : ℚ) else 0)) 1
    ∧ (0.6 : ℚ) ≤ uniquenessScore s t ∧ uniquenessScore s t ≤ 1
    ∧ uniquenessScore none t < uniquenessScore (some d) t
    ∧ uniquenessScore s none < uniquenessScore s (some d) := by
  rcases s with _ | s <;> rcases t with _ | t <;>
    norm_num [uniquenessScore, Option.isSome]

/-- C9: whenever the polishing service fails for any reason (no API key
configured, or the external call raised), `polish_review` returns the
original text unchanged as the polished review with the polished flag false. -/
theorem C9_polish_failure_returns_original (hasClient : Bool) (apiResp : Option String)
    (rough_review restaurant_name : String)
    (h : hasClient = false ∨ apiResp = none) :
    (polishReview hasClient apiResp rough_review restaurant_name).polished_review
        = rough_review
    ∧ (polishReview hasClient apiResp rough_review restaurant_name).polished = false := by
  rcases h with h | h
  · simp [polishReview, h]
  · cases hasClient <;> simp [polishReview, h]

/-- C9 witness: the no-API-key path on a concrete review. -/
theorem C9_witness :
    (polishReview false none "Great tacos and amazing service!" "Pablo Cantina").polished_review
        = "Great tacos and amazing service!"
    ∧ (polishReview false none "Great tacos and amazing service!" "Pablo Cantina").polished
        = false :=
  C9_polish_failure_returns_original false none
    "Great tacos and amazing service!" "Pablo Cantina" (Or.inl rfl)

theorem isOk_map {α β : Type} (f : α → β) (x : Except String α) :
    (f <$> x).isOk = x.isOk := by
  cases x <;> rfl

theorem endsPunct_bangStep (l : List Char) : endsPunct (bangStep l) = true := by
  cases hE : endsPunct l
  · rw [bangStep, hE, if_neg (by simp), endsPunct, List.getLast?_concat]
    rfl
  · rw [bangStep, hE, if_pos rfl]
    exact hE

theorem endsPunct_enhanceCore (l : List Char) : endsPunct (enhanceCore l) = true :=
  endsPunct_bangStep _

/-- A restaurant on the built-in casual template path, used for concrete runs. -/
def c1Restaurant : Restaurant :=
  { name := "Pablo Cantina", cuisine := "Mexican", restaurant_type := "casual",
    location := "downtown Seattle",
    seo_keywords := ["best Mexican restaurant downtown Seattle", "authentic tacos Seattle"],
    custom_templates := [] }

set_option maxRecDepth 100000 in
/-- C1 counterexample: `generate_review` called with rating 3 (outside the
supported positive-path set 4-5) does not fail: it returns a review record.
No `InvalidRating` error exists anywhere in the code. -/
theorem C1_counterexample :
    (generateReview c1Restaurant 3 "tacos" "date night" ⟨0, 0, 0, 0, 0⟩).isOk = true := by
  rfl

set_option maxRecDepth 100000 in
/-- C1 amended: `generate_review` performs no rating validation at all - for
every integer rating (in particular every value outside 4-5) it returns a
review record, merely interpolating the rating into the template; rating
gating lives in the callers: the API route accepts exactly ratings 1-5 and
the submission route sends ratings below 4 to the private feedback path
instead of the generator. -/
theorem C1_amended (rating : Int) :
    (generateReview c1Restaurant rating "tacos" "date night" ⟨0, 0, 0, 0, 0⟩).isOk = true
    ∧ submitIsPublicPath 3 = false
    ∧ apiRatingValid 3 = true
    ∧ apiRatingValid 0 = false ∧ apiRatingValid 6 = false :=
  ⟨rfl, rfl, rfl, rfl, rfl⟩

/-- C7: every review text returned by `generate_review` ends in one of `.`,
`!`, `?`, because the Text Finisher enforces terminal punctuation on every
branch. -/
theorem C7_terminal_punctuation (r : Restaurant) (rating : Int)
    (favorite_dish atmosphere : String) (rnd : Rand) (txt : String)
    (h : (generateReview r rating favorite_dish atmosphere rnd).map
        (fun rec => rec.review) = .ok txt) :
    endsPunct txt.data = true := by
  rw [generateReview] at h
  split at h
  · exact absurd h (by simp [Except.map])
  · simp only [Except.map, Except.ok.injEq] at h
    rw [← h]
    exact endsPunct_enhanceCore _

/-- A restaurant with the minimal custom template, for small concrete runs. -/
def witRestaurant : Restaurant :=
  { name := "Casa Lean", cuisine := "Mexican", restaurant_type := "casual",
    location := "downtown", seo_keywords := [], custom_templates := ["{name}"] }

set_option maxRecDepth 100000 in
/-- C7 witness: a concrete generation whose review text ends in `!`. -/
theorem C7_witness : endsPunct "Casa Lean!".data = true :=
  C7_terminal_punctuation witRestaurant 5 "tacos" "date night" ⟨0, 0, 0, 0, 0⟩
    "Casa Lean!" (by rfl)

/-- A restaurant whose custom template shows the dish phrase in isolation. -/
def c4Restaurant : Restaurant :=
  { name := "Casa Lean", cuisine := "Mexican", restaurant_type := "casual",
    location := "downtown", seo_keywords := [],
    custom_templates := ["The {dish} was great!"] }

set_option maxRecDepth 100000 in
/-- C4 counterexample: for the favorite-dish string "tacos, queso" the
generator does not split on the comma and join with "and": the dish handler
matches the enhancement key "tacos" inside the lowercased raw string and
discards "queso" entirely, so the review contains neither "queso" nor
"tacos and queso". -/
theorem C4_counterexample :
    (generateReview c4Restaurant 5 "tacos, queso" "date night" ⟨0, 0, 0, 0, 0⟩).map
        (fun rec => rec.review) = .ok "The amazing tacos was great!"
    ∧ containsSub "queso".data "The amazing tacos was great!".data = false
    ∧ containsSub "tacos and queso".data "The amazing tacos was great!".data = false := by
  refine ⟨by rfl, by decide, by decide⟩

/-- C4 amended: `_enhance_dish_description` performs no comma splitting and no
conjunction joining: it lowercases the whole raw dish string, and returns one
of the embellished renderings of the first enhancement-table key occurring in
it as a substring; if no key matches, a raw string with at least two
whitespace-separated words passes through verbatim and a shorter one is
wrapped as `amazing {dish}`. -/
theorem C4_amended :
    (∀ (dish : String) (i : Nat),
        containsSub "tacos".data (pyLower dish).data = true →
        enhanceDish dish "Mexican" i
          ∈ ["amazing tacos", "authentic tacos", "incredible tacos"])
    ∧ (∀ (dish cuisine : String) (i : Nat),
        (dishEnhancements cuisine).find?
            (fun kv => containsSub kv.1.data (pyLower dish).data) = none →
        enhanceDish dish cuisine i
          = if (wordsOf dish.data).length > 1 then dish else "amazing " ++ dish) := by
  constructor
  · intro dish i h
    have hfind : (dishEnhancements "Mexican").find?
        (fun kv => containsSub kv.1.data (pyLower dish).data)
        = some ("tacos", ["amazing tacos", "authentic tacos", "incredible tacos"]) := by
      rw [show dishEnhancements "Mexican"
          = [("tacos", ["amazing tacos", "authentic tacos", "incredible tacos"]),
             ("burrito", ["massive burrito", "loaded burrito", "perfect burrito"]),
             ("enchiladas", ["cheese enchiladas", "chicken enchiladas", "amazing enchiladas"]),
             ("margarita", ["perfect margarita", "refreshing margarita", "house margarita"])]
          from rfl]
      rw [List.find?]
      simp [h]
    rw [enhanceDish, hfind]
    exact pick_mem _ i _ (by simp)
  · intro dish cuisine i h
    rw [enhanceDish, h]

/-- C4 witness for the amended claim: a two-dish string matching "tacos". -/
theorem C4_witness :
    enhanceDish "tacos, queso" "Mexican" 1
      ∈ ["amazing tacos", "authentic tacos", "incredible tacos"] :=
  C4_amended.1 "tacos, queso" 1 (by decide)

/-- Static check that a template only references placeholders drawn from the
given key list, mirroring the scanner of `str.format`. -/
def fmtOKAux (ks : List String) : List Char → Option (List Char) → Bool
  | [], none => true
  | [], some _ => false
  | '\x7b' :: '\x7b' :: rest, none => fmtOKAux ks rest none
  | '\x7b' :: rest, none => fmtOKAux ks rest (some [])
  | '\x7d' :: '\x7d' :: rest, none => fmtOKAux ks rest none
  | '\x7d' :: _, none => false
  | _ :: rest, none => fmtOKAux ks rest none
  | '\x7d' :: rest, some acc => ks.contains (String.mk acc.reverse) && fmtOKAux ks rest none
  | c :: rest, some acc => fmtOKAux ks rest (some (c :: acc))

/-- Whether every placeholder of the template is among the keys `ks`. -/
def fmtOK (ks : List String) (template : List Char) : Bool := fmtOKAux ks template none

/-- The twelve placeholder names supplied by `_prepare_template_variables`. -/
def supportedPlaceholders : List String :=
  ["name", "rating", "dish", "favorite_dish", "atmosphere", "location", "cuisine",
   "cuisine_praise", "seo_keyword_1", "seo_keyword_2", "closing_praise", "restaurant_type"]

theorem keyList_prepareTemplateVars (r : Restaurant) (rating : Int)
    (favorite_dish atmosphere : String) (rnd : Rand) :
    (prepareTemplateVars r rating favorite_dish atmosphere rnd).map (·.1)
      = supportedPlaceholders := rfl

theorem formatAux_isOk_of_fmtOK (vars : List (String × String)) :
    ∀ (t : List Char) (mode : Option (List Char)),
    fmtOKAux (vars.map (·.1)) t mode = true → (formatAux vars t mode).isOk = true := by
  intro t mode h
  induction t, mode using formatAux.induct vars with
  | case1 => rfl
  | case2 acc => exact absurd h (by simp [fmtOKAux])
  | case3 rest ih =>
    simp only [fmtOKAux] at h
    simp only [formatAux, isOk_map]
    exact ih h
  | case4 rest guard ih =>
    simp only [fmtOKAux] at h
    simp only [formatAux]
    exact ih h
  | case5 rest ih =>
    simp only [fmtOKAux] at h
    simp only [formatAux, isOk_map]
    exact ih h
  | case6 tail guard =>
    simp only [fmtOKAux] at h
    simp at h
  | case7 c rest g1 g2 g3 g4 ih =>
    simp only [fmtOKAux] at h
    simp only [formatAux, isOk_map]
    exact ih h
  | case8 rest acc v hlook ih =>
    simp only [fmtOKAux] at h
    rcases (Bool.and_eq_true _ _).mp h with ⟨hmem, hrest⟩
    simp only [formatAux, hlook, isOk_map]
    exact ih hrest
  | case9 rest acc hlook =>
    simp only [fmtOKAux] at h
    rcases (Bool.and_eq_true _ _).mp h with ⟨hmem, hrest⟩
    have hsome := lookup_isSome_of_mem_keys vars (String.mk acc.reverse)
      (by simpa using hmem)
    rw [hlook] at hsome
    simp at hsome
  | case10 c rest acc guard ih =>
    simp only [fmtOKAux] at h
    simp only [formatAux]
    exact ih h

/-- A restaurant whose custom template references both a supported placeholder
with no stored value and an unsupported placeholder name. -/
def c2Restaurant : Restaurant :=
  { name := "Casa Lean", cuisine := "Mexican", restaurant_type := "casual",
    location := "downtown", seo_keywords := [],
    custom_templates := ["Best {seo_keyword_1} and {seo_keyword_3}!"] }

set_option maxRecDepth 100000 in
/-- C2 counterexample: not every unresolved placeholder is masked by fallback
substitution: a template referencing a placeholder outside the supported
variable set (here `seo_keyword_3`, while the SEO keyword list is empty)
makes `generate_review` fail hard with a `KeyError`. -/
theorem C2_counterexample :
    generateReview c2Restaurant 5 "tacos" "date night" ⟨0, 0, 0, 0, 0⟩
      = .error "KeyError: seo_keyword_3" := by
  rfl

/-- C2 amended: placeholders drawn from the supported twelve-name variable set
are always substituted - in particular, with an empty SEO keyword list the two
SEO placeholders receive generic fallback phrases built from the cuisine - and
`generate_review` succeeds on every template whose placeholders all lie in
that set; but a template referencing any other placeholder name fails hard
with a `KeyError` instead of fallback substitution. -/
theorem C2_amended (r : Restaurant) (rating : Int)
    (favorite_dish atmosphere : String) (rnd : Rand) :
    (fmtOK supportedPlaceholders
        (pick (if r.custom_templates = [] then defaultTemplates r.restaurant_type
               else r.custom_templates) rnd.tIdx "").data = true →
      (generateReview r rating favorite_dish atmosphere rnd).isOk = true)
    ∧ (r.seo_keywords = [] →
        (prepareTemplateVars r rating favorite_dish atmosphere rnd).lookup "seo_keyword_1"
            = some ("great " ++ pyLower r.cuisine ++ " restaurant")
        ∧ (prepareTemplateVars r rating favorite_dish atmosphere rnd).lookup "seo_keyword_2"
            = some (pyLower r.cuisine ++ " food")) := by
  constructor
  · intro h
    have hok : (formatAux (prepareTemplateVars r rating favorite_dish atmosphere rnd)
        (pick (if r.custom_templates = [] then defaultTemplates r.restaurant_type
               else r.custom_templates) rnd.tIdx "").data none).isOk = true := by
      apply formatAux_isOk_of_fmtOK
      rw [keyList_prepareTemplateVars]
      exact h
    simp only [generateReview]
    split
    · next e heq =>
      exfalso
      rw [pyFormat, formatCore] at heq
      cases hax : formatAux (prepareTemplateVars r rating favorite_dish atmosphere rnd)
          (pick (if r.custom_templates = [] then defaultTemplates r.restaurant_type
                 else r.custom_templates) rnd.tIdx "").data none with
      | error e2 => rw [hax] at hok; exact absurd hok (by simp [Except.isOk, Except.toBool])
      | ok v => rw [hax] at heq; exact absurd heq (by simp [Except.map])
    · rfl
  · intro h
    have hshuf : shuffle rnd.shufIdx r.seo_keywords = [] := by
      rw [h]; simp [shuffle]
    constructor <;>
      simp [prepareTemplateVars, prepareTemplateVarsWith, hshuf, List.lookup]

/-- A restaurant with an empty keyword list whose template uses only supported
placeholders, exercising the fallback substitution end to end. -/
def c2okRestaurant : Restaurant :=
  { name := "Casa Lean", cuisine := "Mexican", restaurant_type := "casual",
    location := "downtown", seo_keywords := [],
    custom_templates := ["I found a {seo_keyword_1}!"] }

set_option maxRecDepth 100000 in
/-- C2 witness: on a template with only supported placeholders and an empty
keyword list, generation succeeds and the SEO placeholder got the generic
fallback phrase. -/
theorem C2_witness :
    (generateReview c2okRestaurant 5 "tacos" "date night" ⟨0, 0, 0, 0, 0⟩).isOk = true
    ∧ (prepareTemplateVars c2okRestaurant 5 "tacos" "date night" ⟨0, 0, 0, 0, 0⟩).lookup
        "seo_keyword_1" = some ("great " ++ pyLower c2okRestaurant.cuisine ++ " restaurant") :=
  ⟨(C2_amended c2okRestaurant 5 "tacos" "date night" ⟨0, 0, 0, 0, 0⟩).1 (by decide),
   ((C2_amended c2okRestaurant 5 "tacos" "date night" ⟨0, 0, 0, 0, 0⟩).2 rfl).1⟩

/-- C10: `generate_review` never mutates the restaurant profile: the shuffle
acts on a copy of the stored SEO keyword list, so the state-threaded run
returns the restaurant record, and in particular its keyword list, unchanged. -/
theorem C10_no_mutation (r : Restaurant) (rating : Int)
    (favorite_dish atmosphere : String) (rnd : Rand) :
    (generateReviewSt r rating favorite_dish atmosphere rnd).2 = r
    ∧ (generateReviewSt r rating favorite_dish atmosphere rnd).2.seo_keywords
        = r.seo_keywords := by
  have h2 : (generateReviewSt r rating favorite_dish atmosphere rnd).2 = r := rfl
  exact ⟨h2, by rw [h2]⟩

end ReviewSys
